import Mathlib

/-!
# Verification of the money-muling detection engine

A shallow embedding of the transaction-analysis pipeline
(`backend/app/engine/`): the CSV parser, the transaction graph builder,
the three pattern detectors (cycles, smurfing, layered shells), the
scorer and the analysis aggregator, together with proofs of the
behavioural claims about them.

Machine floats are modelled by `FloatVal` (an exact rational together
with the non-finite IEEE values `inf`, `-inf` and `nan`); datetimes by a
civil-calendar record mapped to a second count.  Python dictionaries are
modelled by insertion-ordered association lists, Python sets by
`Finset`s.  The stable Python sort is modelled by `List.insertionSort`.
-/

namespace Engine

/-! ## Floating-point amounts

`FloatVal` models the values `float(amount_str)` can produce: a finite
value (kept exact as a rational; the sign and the comparisons with zero
used by the parser are unaffected by rounding), the two infinities and
`nan`.  The comparison functions reproduce IEEE comparison semantics:
every comparison involving `nan` is false.
-/

inductive FloatVal where
  | finite (q : ℚ)
  | inf
  | negInf
  | nan
  deriving DecidableEq, Repr

namespace FloatVal

/-- IEEE `<=`: false whenever either side is `nan`. -/
def fle : FloatVal → FloatVal → Bool
  | nan, _ => false
  | _, nan => false
  | negInf, _ => true
  | _, inf => true
  | inf, finite _ => false
  | inf, negInf => false
  | finite _, negInf => false
  | finite a, finite b => decide (a ≤ b)

/-- IEEE `<`: false whenever either side is `nan`. -/
def flt : FloatVal → FloatVal → Bool
  | nan, _ => false
  | _, nan => false
  | negInf, negInf => false
  | negInf, _ => true
  | inf, _ => false
  | finite _, inf => true
  | finite _, negInf => false
  | finite a, finite b => decide (a < b)

/-- IEEE addition on the model (used for the per-node amount totals). -/
def fadd : FloatVal → FloatVal → FloatVal
  | nan, _ => nan
  | _, nan => nan
  | inf, negInf => nan
  | negInf, inf => nan
  | inf, _ => inf
  | _, inf => inf
  | negInf, _ => negInf
  | _, negInf => negInf
  | finite a, finite b => finite (a + b)

end FloatVal

/-! ## `float(str)` — Python float parsing

Model of CPython's `float(s)` on an already-stripped string: an optional
sign followed by either a decimal literal with optional fraction and
exponent, or one of the case-insensitive words `inf`, `infinity`, `nan`.
(Underscore digit separators and non-ASCII decimal digits, which CPython
also accepts, are omitted; they only change which strings denote finite
numbers, never the sign or comparability of an accepted value.)
-/

def digitVal (c : Char) : ℕ := c.toNat - '0'.toNat

def digitsToNat (ds : List Char) : ℕ :=
  ds.foldl (fun acc c => 10 * acc + digitVal c) 0

/-- Split a leading run of ASCII digits. -/
def spanDigits (cs : List Char) : List Char × List Char :=
  (cs.takeWhile Char.isDigit, cs.dropWhile Char.isDigit)

/-- Case-insensitive comparison of a char list with a lowercase word. -/
def lowerIs (cs : List Char) (w : String) : Bool :=
  (cs.map Char.toLower) == w.data

/-- The exponent suffix `[eE][+-]?digits` followed by end of string. -/
def pyFloatExp (cs : List Char) (mant : ℚ) : Option ℚ :=
  match cs with
  | [] => some mant
  | e :: rest =>
    if e = 'e' ∨ e = 'E' then
      let (neg, rest') :=
        match rest with
        | '+' :: r => (false, r)
        | '-' :: r => (true, r)
        | r => (false, r)
      let (ds, rest'') := spanDigits rest'
      if ds = [] ∨ rest'' ≠ [] then none
      else
        let ex := digitsToNat ds
        some (if neg then mant / (10 : ℚ) ^ ex else mant * (10 : ℚ) ^ ex)
    else none

/-- The numeric part after the optional sign. -/
def pyFloatNum (cs : List Char) : Option ℚ :=
  let (ip, rest) := spanDigits cs
  match rest with
  | '.' :: rest' =>
    let (fp, rest'') := spanDigits rest'
    if ip = [] ∧ fp = [] then none
    else
      pyFloatExp rest''
        ((digitsToNat ip : ℚ) + (digitsToNat fp : ℚ) / (10 : ℚ) ^ fp.length)
  | _ =>
    if ip = [] then none else pyFloatExp rest (digitsToNat ip)

/-- `float(s)` on a stripped string. -/
def pyFloat (s : String) : Option FloatVal :=
  match s.data with
  | [] => none
  | cs =>
    let (neg, cs') :=
      match cs with
      | '+' :: r => (false, r)
      | '-' :: r => (true, r)
      | r => (false, r)
    if lowerIs cs' "inf" ∨ lowerIs cs' "infinity" then
      some (if neg then FloatVal.negInf else FloatVal.inf)
    else if lowerIs cs' "nan" then
      some FloatVal.nan
    else
      (pyFloatNum cs').map fun q =>
        FloatVal.finite (if neg then -q else q)

/-! ## Datetimes and `strptime "%Y-%m-%d %H:%M:%S"`

`datetime.strptime` with this format accepts a 4-digit year and 1–2
digit month, day, hour, minute and second fields (the `_strptime`
regular expressions pad-insensitively match one or two digits); the
run of whitespace between date and time matches any positive run of
whitespace; the whole string must be consumed.  `datetime(...)` then
validates the ranges: year ≥ 1, day within the month (Gregorian leap
rule) and second ≤ 59 (strptime itself admits 60 and 61, which the
`datetime` constructor rejects, turning them into a skipped row).
-/

structure DateTime where
  year : ℕ
  month : ℕ
  day : ℕ
  hour : ℕ
  minute : ℕ
  second : ℕ
  deriving DecidableEq, Repr

def isLeapYear (y : ℕ) : Bool :=
  (y % 4 == 0 && y % 100 != 0) || (y % 400 == 0)

def daysInMonth (y m : ℕ) : ℕ :=
  if m = 2 then (if isLeapYear y then 29 else 28)
  else if m = 4 ∨ m = 6 ∨ m = 9 ∨ m = 11 then 30
  else 31

/-- Days in the months strictly before month `m` of year `y`. -/
def daysBeforeMonth (y m : ℕ) : ℕ :=
  (List.range (m - 1)).foldl (fun acc i => acc + daysInMonth y (i + 1)) 0

/-- Seconds since 0001-01-01 00:00:00 of a civil datetime.  Strictly
monotone on valid datetimes, so it models `datetime` comparison and
subtraction. -/
def toSec (dt : DateTime) : ℕ :=
  let q := dt.year - 1
  let days := 365 * q + q / 4 - q / 100 + q / 400
    + daysBeforeMonth dt.year dt.month + (dt.day - 1)
  days * 86400 + dt.hour * 3600 + dt.minute * 60 + dt.second

/-- Field ranges enforced by the `datetime` constructor (given the
strptime field bounds). -/
def validDT (dt : DateTime) : Bool :=
  1 ≤ dt.year && dt.year ≤ 9999 &&
  1 ≤ dt.month && dt.month ≤ 12 &&
  1 ≤ dt.day && dt.day ≤ daysInMonth dt.year dt.month &&
  dt.hour ≤ 23 && dt.minute ≤ 59 && dt.second ≤ 59

/-- Greedily read one or two ASCII digits. -/
def take12 (cs : List Char) : Option (ℕ × List Char) :=
  match cs with
  | c1 :: c2 :: rest =>
    if c1.isDigit then
      if c2.isDigit then some (digitVal c1 * 10 + digitVal c2, rest)
      else some (digitVal c1, c2 :: rest)
    else none
  | [c1] => if c1.isDigit then some (digitVal c1, []) else none
  | [] => none

/-- Read exactly four ASCII digits. -/
def take4 (cs : List Char) : Option (ℕ × List Char) :=
  match cs with
  | c1 :: c2 :: c3 :: c4 :: rest =>
    if c1.isDigit && c2.isDigit && c3.isDigit && c4.isDigit then
      some (digitsToNat [c1, c2, c3, c4], rest)
    else none
  | _ => none

/-- Require one literal character. -/
def lit (c : Char) (cs : List Char) : Option (List Char) :=
  match cs with
  | c' :: rest => if c' = c then some rest else none
  | [] => none

/-- Require a positive run of whitespace (a whitespace run in the
strptime format matches one or more whitespace characters). -/
def ws1 (cs : List Char) : Option (List Char) :=
  match cs with
  | c :: rest =>
    if c.isWhitespace then some (rest.dropWhile Char.isWhitespace) else none
  | [] => none

/-- `datetime.strptime(s, "%Y-%m-%d %H:%M:%S")` followed by `datetime`
construction; `none` models the `ValueError` the parser catches. -/
def parseTs (s : String) : Option DateTime := do
  let (y, r1) ← take4 s.data
  let r2 ← lit '-' r1
  let (mo, r3) ← take12 r2
  if ¬ (1 ≤ mo ∧ mo ≤ 12) then none else do
  let r4 ← lit '-' r3
  let (d, r5) ← take12 r4
  if ¬ (1 ≤ d ∧ d ≤ 31) then none else do
  let r6 ← ws1 r5
  let (h, r7) ← take12 r6
  if ¬ (h ≤ 23) then none else do
  let r8 ← lit ':' r7
  let (mi, r9) ← take12 r8
  if ¬ (mi ≤ 59) then none else do
  let r10 ← lit ':' r9
  let (sec, r11) ← take12 r10
  if ¬ (sec ≤ 61) then none else do
  if r11 ≠ [] then none else do
  let dt : DateTime := ⟨y, mo, d, h, mi, sec⟩
  -- the datetime(...) constructor validation
  if 1 ≤ y ∧ d ≤ daysInMonth y mo ∧ sec ≤ 59 then some dt else none

/-- Shape of the exact `YYYY-MM-DD HH:MM:SS` layout: nineteen
characters, digits in the zero-padded positions, literal separators. -/
def exactFormat (s : String) : Bool :=
  match s.data with
  | [y1, y2, y3, y4, s1, m1, m2, s2, d1, d2, s3, h1, h2, s4, i1, i2, s5, e1, e2] =>
    y1.isDigit && y2.isDigit && y3.isDigit && y4.isDigit && s1 = '-' &&
    m1.isDigit && m2.isDigit && s2 = '-' && d1.isDigit && d2.isDigit &&
    s3 = ' ' && h1.isDigit && h2.isDigit && s4 = ':' && i1.isDigit &&
    i2.isDigit && s5 = ':' && e1.isDigit && e2.isDigit
  | _ => false

/-! ## UTF-8 decoding

Strict UTF-8 decoder (overlong encodings, surrogates and out-of-range
code points rejected), modelling `bytes.decode("utf-8")`; `none` models
`UnicodeDecodeError`.
-/

/-- Continuation byte `0x80..0xBF`. -/
def isCont (b : ℕ) : Bool := 0x80 ≤ b && b ≤ 0xBF

def utf8DecodeAux : List ℕ → Option (List Char)
  | [] => some []
  | b :: rest =>
    if b < 0x80 then
      (utf8DecodeAux rest).map (Char.ofNat b :: ·)
    else if 0xC2 ≤ b ∧ b ≤ 0xDF then
      match rest with
      | c1 :: rest1 =>
        if isCont c1 then
          (utf8DecodeAux rest1).map (Char.ofNat ((b - 0xC0) * 64 + (c1 - 0x80)) :: ·)
        else none
      | [] => none
    else if 0xE0 ≤ b ∧ b ≤ 0xEF then
      match rest with
      | c1 :: c2 :: rest2 =>
        let okC1 : Bool :=
          if b = 0xE0 then 0xA0 ≤ c1 && c1 ≤ 0xBF
          else if b = 0xED then 0x80 ≤ c1 && c1 ≤ 0x9F
          else isCont c1
        if okC1 && isCont c2 then
          (utf8DecodeAux rest2).map
            (Char.ofNat ((b - 0xE0) * 4096 + (c1 - 0x80) * 64 + (c2 - 0x80)) :: ·)
        else none
      | _ => none
    else if 0xF0 ≤ b ∧ b ≤ 0xF4 then
      match rest with
      | c1 :: c2 :: c3 :: rest3 =>
        let okC1 : Bool :=
          if b = 0xF0 then 0x90 ≤ c1 && c1 ≤ 0xBF
          else if b = 0xF4 then 0x80 ≤ c1 && c1 ≤ 0x8F
          else isCont c1
        if okC1 && isCont c2 && isCont c3 then
          (utf8DecodeAux rest3).map
            (Char.ofNat ((b - 0xF0) * 262144 + (c1 - 0x80) * 4096 +
              (c2 - 0x80) * 64 + (c3 - 0x80)) :: ·)
        else none
      | _ => none
    else none

def utf8Decode (bs : List ℕ) : Option String :=
  (utf8DecodeAux bs).map List.asString

/-- The UTF-8 bytes of an ASCII string (used to build concrete inputs). -/
def asciiBytes (s : String) : List ℕ := s.data.map Char.toNat

/-! ## CSV reading

`io.StringIO` iteration splits the text at universal newlines; the
`csv` reader turns each line into its comma-separated fields (an empty
line becomes the empty record, which `DictReader` skips).  Quoting is
not modelled: no claim concerns quoted fields, and the quoting layer
only changes how a line maps to fields, never the row-validation logic
proved about here.
-/

def splitLinesAux : List Char → List Char → List (List Char)
  | [], cur => [cur]
  | '\r' :: '\n' :: rest, cur => cur :: splitLinesAux rest []
  | '\r' :: rest, cur => cur :: splitLinesAux rest []
  | '\n' :: rest, cur => cur :: splitLinesAux rest []
  | c :: rest, cur => splitLinesAux rest (cur ++ [c])

/-- The lines of a text, as produced by iterating `io.StringIO`
(universal newlines; a trailing newline does not produce a final empty
line; the empty text has no lines). -/
def pyLines (s : String) : List String :=
  match s.data with
  | [] => []
  | cs =>
    let ls := splitLinesAux cs []
    let ls := if ls.getLast? = some [] then ls.dropLast else ls
    ls.map List.asString

def splitCommasAux : List Char → List Char → List (List Char)
  | [], cur => [cur]
  | ',' :: rest, cur => cur :: splitCommasAux rest []
  | c :: rest, cur => splitCommasAux rest (cur ++ [c])

/-- One CSV record: the comma-separated fields of a line; an empty line
yields the empty record. -/
def parseRecord (line : String) : List String :=
  match line.data with
  | [] => []
  | cs => (splitCommasAux cs []).map List.asString

/-! ## The parser (`engine/parser.py`) -/

/-- A single parsed transaction record. -/
structure Transaction where
  transaction_id : String
  sender_id : String
  receiver_id : String
  amount : FloatVal
  timestamp : DateTime
  deriving DecidableEq, Repr

def REQUIRED_COLUMNS : List String :=
  ["transaction_id", "sender_id", "receiver_id", "amount", "timestamp"]

/-- The errors `parse_csv` can raise: the typed `CSVParseError`, and the
`AttributeError` that escapes when a row lookup yields `None`
(`DictReader`'s `restval` for a row shorter than the header) and
`.strip()` is called on it — `except (ValueError, KeyError)` does not
catch it. -/
inductive ParseErr where
  | csvParseError (msg : String)
  | attributeError
  deriving DecidableEq, Repr

/-- Python `str` whitespace (ASCII part). -/
def pyWs (c : Char) : Bool :=
  c = ' ' || c = '\t' || c = '\n' || c = '\r' || c = '\x0b' || c = '\x0c'

/-- `s.strip()`: drop leading and trailing whitespace. -/
def pyStrip (s : String) : String :=
  ⟨((s.data.dropWhile pyWs).reverse.dropWhile pyWs).reverse⟩

/-- `s.lower()` (ASCII letters). -/
def pyLower (s : String) : String := ⟨s.data.map Char.toLower⟩

/-- Header normalization: strip whitespace, lowercase. -/
def cleanHeader (f : String) : String := pyLower (pyStrip f)

/-- Indices of `x` in `l`. -/
def idxsOf (x : String) (l : List String) : List ℕ :=
  (List.range l.length).filter fun i => l.getD i "" = x

/-- Result of `row[col_map[c]].strip()` before stripping: the key can be
absent (`KeyError`, caught), the value can be `None` (`AttributeError`,
uncaught), or a string. -/
inductive RowLookup where
  | missingKey
  | noneVal
  | strVal (s : String)
  deriving DecidableEq, Repr

/-- `row[col_map[c]]` under the `DictReader` row dictionary: `col_map`
maps the cleaned name to the original header of its last occurrence;
the row dictionary maps a header name to the field at its last
occurrence, or to `None` (`restval`) if any occurrence lies beyond the
row's length. -/
def dictVal (fieldnames row : List String) (c : String) : RowLookup :=
  match (idxsOf c (fieldnames.map cleanHeader)).getLast? with
  | none => .missingKey
  | some i =>
    let original := fieldnames.getD i ""
    let occ := idxsOf original fieldnames
    if occ.any fun j => row.length ≤ j then .noneVal
    else
      match occ.getLast? with
      | none => .missingKey
      | some j => .strVal (row.getD j "")

/-- The reason a row was not appended, or the accepted transaction. -/
inductive RowOutcome where
  | accepted (t : Transaction)
  | skipMissingKey
  | skipEmptyField
  | skipDup (id : String)
  | skipSelfLoop
  | skipAmount
  | skipTimestamp
  | attrError
  deriving DecidableEq, Repr

/-- Fetch the five required fields in source order, stopping at the
first `KeyError` (caught: skipped row) or `None` value (uncaught
`AttributeError`). -/
def getFields (fieldnames row : List String) :
    Option (RowOutcome ⊕ (String × String × String × String × String)) :=
  let get1 := dictVal fieldnames row
  match get1 "transaction_id" with
  | .missingKey => some (.inl .skipMissingKey)
  | .noneVal => some (.inl .attrError)
  | .strVal v1 =>
  match get1 "sender_id" with
  | .missingKey => some (.inl .skipMissingKey)
  | .noneVal => some (.inl .attrError)
  | .strVal v2 =>
  match get1 "receiver_id" with
  | .missingKey => some (.inl .skipMissingKey)
  | .noneVal => some (.inl .attrError)
  | .strVal v3 =>
  match get1 "amount" with
  | .missingKey => some (.inl .skipMissingKey)
  | .noneVal => some (.inl .attrError)
  | .strVal v4 =>
  match get1 "timestamp" with
  | .missingKey => some (.inl .skipMissingKey)
  | .noneVal => some (.inl .attrError)
  | .strVal v5 => some (.inr (v1, v2, v3, v4, v5))

/-- The body of the row loop of `parse_csv`: outcome of one row, and
the updated `seen_ids` (note that `seen_ids.add` happens before the
self-loop, amount and timestamp checks). -/
def rowProc (fieldnames : List String) (seen : Finset String)
    (row : List String) : RowOutcome × Finset String :=
  match getFields fieldnames row with
  | some (.inl o) => (o, seen)
  | none => (.skipMissingKey, seen)
  | some (.inr (v1, v2, v3, v4, v5)) =>
    let txn_id := pyStrip v1
    let sender := pyStrip v2
    let receiver := pyStrip v3
    let amount_str := pyStrip v4
    let ts_str := pyStrip v5
    if txn_id = "" ∨ sender = "" ∨ receiver = "" ∨ amount_str = "" ∨ ts_str = "" then
      (.skipEmptyField, seen)
    else if txn_id ∈ seen then
      (.skipDup txn_id, seen)
    else
      let seen' := insert txn_id seen
      if sender = receiver then (.skipSelfLoop, seen')
      else
        match pyFloat amount_str with
        | none => (.skipAmount, seen')
        | some amount =>
          if FloatVal.fle amount (.finite 0) then (.skipAmount, seen')
          else
            match parseTs ts_str with
            | none => (.skipTimestamp, seen')
            | some dt =>
              (.accepted ⟨txn_id, sender, receiver, amount, dt⟩, seen')

/-- Run the row loop over the (non-empty) records; `Except`'s error is
the escaping `AttributeError`. -/
def runRows (fieldnames : List String) :
    List (List String) → Finset String → List Transaction → List RowOutcome →
    Except Unit (List RowOutcome × Finset String × List Transaction)
  | [], seen, txns, trace => .ok (trace, seen, txns)
  | row :: rows, seen, txns, trace =>
    match rowProc fieldnames seen row with
    | (.attrError, _) => .error ()
    | (.accepted t, seen') => runRows fieldnames rows seen' (txns ++ [t]) (trace ++ [.accepted t])
    | (o, seen') => runRows fieldnames rows seen' txns (trace ++ [o])

/-- `parse_csv`, with the per-row trace exposed for the proofs. -/
def parse_csv_trace (content : List ℕ) :
    Except ParseErr (List Transaction) × List RowOutcome :=
  match utf8Decode content with
  | none => (.error (.csvParseError "File is not valid UTF-8 encoded text."), [])
  | some text =>
    match pyLines text with
    | [] => (.error (.csvParseError "CSV file is empty or has no header row."), [])
    | headerLine :: rest =>
      let fieldnames := parseRecord headerLine
      let cleaned := fieldnames.map cleanHeader
      if ¬ REQUIRED_COLUMNS.all (cleaned.contains ·) then
        (.error (.csvParseError "Missing required columns."), [])
      else
        let rows := (rest.map parseRecord).filter (· ≠ [])
        match runRows fieldnames rows ∅ [] [] with
        | .error _ => (.error .attributeError, [])
        | .ok (trace, _, txns) =>
          if txns = [] then
            (.error (.csvParseError "No valid transactions found in the CSV file."), trace)
          else (.ok txns, trace)

/-- `parse_csv`: raw CSV bytes to the list of accepted transactions. -/
def parse_csv (content : List ℕ) : Except ParseErr (List Transaction) :=
  (parse_csv_trace content).1

/-! ## The transaction graph (`engine/graph.py`)

Dictionaries keyed by account id are modelled as functions (with the
missing-key default made explicit); the node set as an
insertion-ordered duplicate-free list.
-/

/-- A directed edge in the transaction graph. -/
structure Edge where
  target : String
  amount : FloatVal
  timestamp : DateTime
  transaction_id : String
  deriving DecidableEq, Repr

/-- Pre-computed statistics for a node. -/
structure NodeStats where
  in_degree : ℕ := 0
  out_degree : ℕ := 0
  total_in_amount : FloatVal := .finite 0
  total_out_amount : FloatVal := .finite 0
  deriving DecidableEq, Repr

def NodeStats.total_degree (s : NodeStats) : ℕ := s.in_degree + s.out_degree

def NodeStats.total_txn_count (s : NodeStats) : ℕ := s.in_degree + s.out_degree

/-- Directed graph built from transaction records. -/
structure TransactionGraph where
  nodes : List String
  adj : String → List Edge
  reverse_adj : String → List Edge
  stats : String → Option NodeStats
  incoming : String → List (String × FloatVal × DateTime × String)

def emptyGraph : TransactionGraph where
  nodes := []
  adj := fun _ => []
  reverse_adj := fun _ => []
  stats := fun _ => none
  incoming := fun _ => []

/-- `set.add`: append if absent (insertion-ordered model of the Python
node set). -/
def addNode (l : List String) (x : String) : List String :=
  if x ∈ l then l else l ++ [x]

/-- `TransactionGraph.add_transaction`. -/
def add_transaction (g : TransactionGraph) (txn : Transaction) : TransactionGraph :=
  let sender := txn.sender_id
  let receiver := txn.receiver_id
  let nodes2 := addNode (addNode g.nodes sender) receiver
  let fwd : Edge := ⟨receiver, txn.amount, txn.timestamp, txn.transaction_id⟩
  let rev : Edge := ⟨sender, txn.amount, txn.timestamp, txn.transaction_id⟩
  let stats1 := fun n =>
    if n = sender then some ((g.stats sender).getD {}) else g.stats n
  let stats2 := fun n =>
    if n = receiver then some ((stats1 receiver).getD {}) else stats1 n
  { nodes := nodes2
    adj := fun n => if n = sender then g.adj sender ++ [fwd] else g.adj n
    reverse_adj := fun n =>
      if n = receiver then g.reverse_adj receiver ++ [rev] else g.reverse_adj n
    stats := fun n =>
      let base := (stats2 n).getD {}
      if n = sender ∧ n = receiver then
        -- unreachable for parsed transactions (self-loops are rejected)
        some { base with
          out_degree := base.out_degree + 1
          total_out_amount := base.total_out_amount.fadd txn.amount
          in_degree := base.in_degree + 1
          total_in_amount := base.total_in_amount.fadd txn.amount }
      else if n = sender then
        some { base with
          out_degree := base.out_degree + 1
          total_out_amount := base.total_out_amount.fadd txn.amount }
      else if n = receiver then
        some { base with
          in_degree := base.in_degree + 1
          total_in_amount := base.total_in_amount.fadd txn.amount }
      else stats2 n
    incoming := fun n =>
      if n = receiver then
        g.incoming receiver ++ [(sender, txn.amount, txn.timestamp, txn.transaction_id)]
      else g.incoming n }

/-- `build_graph`. -/
def build_graph (transactions : List Transaction) : TransactionGraph :=
  transactions.foldl add_transaction emptyGraph

/-- `get_neighbors`: outgoing neighbours of a node, in edge order. -/
def get_neighbors (g : TransactionGraph) (node : String) : List String :=
  (g.adj node).map (·.target)

/-- `get_outgoing_edges`. -/
def get_outgoing_edges (g : TransactionGraph) (node : String) : List Edge :=
  g.adj node

/-- `get_incoming_edges` (via reverse adjacency: `target` is the sender). -/
def get_incoming_edges (g : TransactionGraph) (node : String) : List Edge :=
  g.reverse_adj node

def node_count (g : TransactionGraph) : ℕ := g.nodes.length

/-! ## String ordering

Python compares strings lexicographically on code points.  (`pyStrLe`
is definitionally a Bool computation, so sorted outputs evaluate inside
the kernel.)
-/

def charsLe : List Char → List Char → Bool
  | [], _ => true
  | _ :: _, [] => false
  | a :: as, b :: bs =>
    if a.toNat < b.toNat then true
    else if b.toNat < a.toNat then false
    else charsLe as bs

/-- `a <= b` on Python strings. -/
def pyStrLe (a b : String) : Bool := charsLe a.data b.data

/-- The ordering relation used for the model's string sorts. -/
def pyLeR (a b : String) : Prop := pyStrLe a b = true

instance : DecidableRel pyLeR := fun a b => Bool.decEq (pyStrLe a b) true

theorem charsLe_total : ∀ a b : List Char, charsLe a b ∨ charsLe b a
  | [], _ => Or.inl rfl
  | _ :: _, [] => Or.inr rfl
  | a :: as, b :: bs => by
    unfold charsLe
    rcases Nat.lt_trichotomy a.toNat b.toNat with h | h | h
    · left
      simp [h]
    · have hne : ¬ a.toNat < b.toNat := by omega
      have hne' : ¬ b.toNat < a.toNat := by omega
      rcases charsLe_total as bs with hc | hc <;> simp [hne, hne', hc]
    · right
      simp [h]

theorem charsLe_trans : ∀ a b c : List Char,
    charsLe a b → charsLe b c → charsLe a c
  | [], _, _, _, _ => rfl
  | _ :: _, [], _, h, _ => by simp [charsLe] at h
  | _ :: _, _ :: _, [], _, h => by simp [charsLe] at h
  | a :: as, b :: bs, c :: cs, hab, hbc => by
    unfold charsLe at hab hbc ⊢
    rcases Nat.lt_trichotomy a.toNat b.toNat with h1 | h1 | h1
    · rcases Nat.lt_trichotomy b.toNat c.toNat with h2 | h2 | h2
      · simp [show a.toNat < c.toNat from by omega]
      · simp [show a.toNat < c.toNat from by omega]
      · simp [show ¬ b.toNat < c.toNat from by omega, h2] at hbc
    · rcases Nat.lt_trichotomy b.toNat c.toNat with h2 | h2 | h2
      · simp [show a.toNat < c.toNat from by omega]
      · rw [if_neg (show ¬ a.toNat < b.toNat from by omega),
          if_neg (show ¬ b.toNat < a.toNat from by omega)] at hab
        rw [if_neg (show ¬ b.toNat < c.toNat from by omega),
          if_neg (show ¬ c.toNat < b.toNat from by omega)] at hbc
        rw [if_neg (show ¬ a.toNat < c.toNat from by omega),
          if_neg (show ¬ c.toNat < a.toNat from by omega)]
        exact charsLe_trans as bs cs hab hbc
      · simp [show ¬ b.toNat < c.toNat from by omega, h2] at hbc
    · simp [show ¬ a.toNat < b.toNat from by omega, h1] at hab

theorem charsLe_antisymm : ∀ a b : List Char, charsLe a b → charsLe b a → a = b
  | [], [], _, _ => rfl
  | [], _ :: _, _, h => by simp [charsLe] at h
  | _ :: _, [], h, _ => by simp [charsLe] at h
  | a :: as, b :: bs, hab, hba => by
    unfold charsLe at hab hba
    rcases Nat.lt_trichotomy a.toNat b.toNat with h1 | h1 | h1
    · simp [show ¬ b.toNat < a.toNat from by omega, h1] at hba
    · have hchar : a = b := Char.ext (UInt32.ext h1)
      rw [if_neg (show ¬ a.toNat < b.toNat from by omega),
        if_neg (show ¬ b.toNat < a.toNat from by omega)] at hab
      rw [if_neg (show ¬ b.toNat < a.toNat from by omega),
        if_neg (show ¬ a.toNat < b.toNat from by omega)] at hba
      rw [hchar, charsLe_antisymm as bs hab hba]
    · simp [show ¬ a.toNat < b.toNat from by omega, h1] at hab

instance : IsTotal String pyLeR :=
  ⟨fun a b => by
    rcases charsLe_total a.data b.data with h | h
    · exact Or.inl h
    · exact Or.inr h⟩

instance : IsTrans String pyLeR :=
  ⟨fun a b c hab hbc => charsLe_trans a.data b.data c.data hab hbc⟩

instance : IsAntisymm String pyLeR :=
  ⟨fun a b hab hba => by
    have := charsLe_antisymm a.data b.data hab hba
    exact String.ext this⟩

/-! ## Smurfing detection (`engine/detectors/smurfing.py`) -/

def WINDOW_HOURS : ℕ := 72

/-- `timedelta(hours=72)` in seconds. -/
def windowSec : ℕ := WINDOW_HOURS * 3600

def THRESHOLD : ℕ := 10

instance : Inhabited Edge := ⟨⟨"", .finite 0, ⟨1, 1, 1, 0, 0, 0⟩, ""⟩⟩

/-- Timestamp of an edge, in seconds. -/
def tsec (e : Edge) : ℕ := toSec e.timestamp

/-- Sort key order of `sorted(edges, key=lambda e: e.timestamp)`. -/
def edgeLe (a b : Edge) : Prop := tsec a ≤ tsec b

instance : DecidableRel edgeLe := fun a b => Nat.decLe (tsec a) (tsec b)

instance : IsTotal Edge edgeLe := ⟨fun a b => Nat.le_total (tsec a) (tsec b)⟩

instance : IsTrans Edge edgeLe := ⟨fun _ _ _ => Nat.le_trans⟩

/-- Timestamp at index `i` of an edge list (default irrelevant: all uses
are guarded by `i < E.length`). -/
def tsAt (E : List Edge) (i : ℕ) : ℕ := tsec (E.getD i default)

/-- The `while` loop advancing the left pointer past edges more than 72
hours older than edge `r`.  The bound check is the model's totality
guard (with `l ≤ r < E.length` and a sorted list the loop stops at `r`
at the latest, exactly as in the source); `fuel` is a structural
counter, never exhausted when called with `fuel ≥ E.length - l`. -/
def advL (E : List Edge) (r : ℕ) : ℕ → ℕ → ℕ
  | l, 0 => l
  | l, fuel + 1 =>
    if l < E.length ∧ (windowSec : ℤ) < (tsAt E r : ℤ) - tsAt E l then
      advL E r (l + 1) fuel
    else l

/-- Distinct counterparties of the inclusive index window `[l, r]`. -/
def windowTargets (E : List Edge) (l r : ℕ) : Finset String :=
  (((E.drop l).take (r + 1 - l)).map (·.target)).toFinset

/-- The sliding-window loop: for each `right`, shrink from the left
while the span exceeds 72 hours, collect the distinct counterparties of
the window, and keep the largest qualifying set (ties keep the earlier
window).  `fuel` is a structural counter, never exhausted when called
with `fuel ≥ E.length - r`. -/
def slideGo (E : List Edge) : ℕ → ℕ → Finset String → ℕ → Finset String
  | _, _, best, 0 => best
  | r, l, best, fuel + 1 =>
    if r < E.length then
      let l' := advL E r l E.length
      let cur := windowTargets E l' r
      let best' := if THRESHOLD ≤ cur.card ∧ best.card < cur.card then cur else best
      slideGo E (r + 1) l' best' fuel
    else best

/-- `_check_temporal_window` (and the textually identical
`_check_temporal_window_outgoing`): the set of counterparties of some
72-hour window if one reaches the threshold, else `None`. -/
def check_temporal_window (edges : List Edge) : Option (Finset String) :=
  if edges.length < THRESHOLD then none
  else
    let sortedE := edges.insertionSort edgeLe
    let best := slideGo sortedE 0 0 ∅ sortedE.length
    if THRESHOLD ≤ best.card then some best else none

/-- A detected smurfing pattern. -/
structure SmurfingRing where
  hub_account : String
  counterparties : List String
  pattern : String
  members : List String
  deriving DecidableEq, Repr

/-- `list(s)` on a Python set: iteration order is unspecified in the
source; the model determinizes it to ascending order.  (Defined through
`insertionSort` so that it evaluates inside the kernel.) -/
def listOfSet (s : Finset String) : List String :=
  Quot.liftOn s.val (fun l => l.insertionSort pyLeR) fun l₁ l₂ h =>
    List.eq_of_perm_of_sorted
      ((List.perm_insertionSort _ l₁).trans
        ((Quotient.exact (Quotient.sound h)).trans
          (List.perm_insertionSort _ l₂).symm))
      (List.sorted_insertionSort _ l₁) (List.sorted_insertionSort _ l₂)

/-- The body of `detect_smurfing`'s node loop, threading the
already-flagged hub sets and the result accumulator. -/
def smurfLoop (g : TransactionGraph) :
    List String → Finset String → Finset String → List SmurfingRing →
    List SmurfingRing
  | [], _, _, results => results
  | node :: rest, fin, fout, results =>
    let incoming := get_incoming_edges g node
    let step1 :=
      if THRESHOLD ≤ incoming.length ∧ node ∉ fin then
        match check_temporal_window incoming with
        | some partners =>
          (insert node fin,
           results ++ [⟨node, listOfSet partners, "fan_in", node :: listOfSet partners⟩])
        | none => (fin, results)
      else (fin, results)
    let outgoing := get_outgoing_edges g node
    let step2 :=
      if THRESHOLD ≤ outgoing.length ∧ node ∉ fout then
        match check_temporal_window outgoing with
        | some partners =>
          (insert node fout,
           step1.2 ++ [⟨node, listOfSet partners, "fan_out", node :: listOfSet partners⟩])
        | none => (fout, step1.2)
      else (fout, step1.2)
    smurfLoop g rest step1.1 step2.1 step2.2

/-- `detect_smurfing`: fan-in and fan-out rings over all nodes. -/
def detect_smurfing (g : TransactionGraph) : List SmurfingRing :=
  smurfLoop g g.nodes ∅ ∅ []

/-- Specification-side window predicate: the distinct counterparties of
the edges whose timestamps lie in the inclusive window `[t, t + 72h]`. -/
def windowSenders (edges : List Edge) (t : ℤ) : Finset String :=
  ((edges.filter fun e =>
      decide (t ≤ (tsec e : ℤ) ∧ (tsec e : ℤ) ≤ t + windowSec)).map (·.target)).toFinset

/-- There is a 72-hour window (inclusive on both ends) covering edges
with at least `THRESHOLD` distinct counterparties. -/
def HasWindow (edges : List Edge) : Prop :=
  ∃ t : ℤ, THRESHOLD ≤ (windowSenders edges t).card

/-! ## Cycle detection (`engine/detectors/cycles.py`)

The set of found cycles is modelled as a duplicate-free list in
insertion order (`addCycle` is `set.add`); the explicit-stack DFS is
transcribed with the stack as a head-is-top list.
-/

def MAX_ITERATIONS : ℕ := 100000

def MAX_CYCLES : ℕ := 50

/-- A detected circular routing ring. -/
structure CycleRing where
  members : List String
  length : ℕ
  deriving DecidableEq, Repr

/-- `min(cycle)` for a nonempty list of account ids. -/
def pyMin (cycle : List String) : String :=
  match cycle with
  | [] => ""
  | c :: cs => cs.foldl (fun m x => if pyStrLe m x then m else x) c

/-- `_normalize_cycle`: rotate so the lexicographically smallest account
id is first. -/
def normalize_cycle (cycle : List String) : List String :=
  match cycle with
  | [] => []
  | _ =>
    let min_idx := cycle.indexOf (pyMin cycle)
    cycle.drop min_idx ++ cycle.take min_idx

/-- `found_cycles.add(normalized)`: set insertion, as a duplicate-free
list in insertion order. -/
def addCycle (found : List (List String)) (k : List String) : List (List String) :=
  if k ∈ found then found else found ++ [k]

/-- One DFS stack entry: `(current_node, path, visited_set, neighbor_index)`. -/
structure Frame where
  node : String
  path : List String
  visited : Finset String
  idx : ℕ
  deriving DecidableEq

/-- The `for i in range(neighbor_idx, len(neighbors))` loop.  `rem` is
the remaining neighbour list, `i` the index of its head in the full
neighbour list.  Returns the frames pushed (head-is-top), the found
cycles, and the iteration counter. -/
def cycleInner (start current : String) (path : List String)
    (visited : Finset String) (min_length max_length : ℕ) :
    List String → ℕ → List (List String) → ℕ →
    List Frame × List (List String) × ℕ
  | [], _, found, iter => ([], found, iter)
  | v :: rem, i, found, iter =>
    let iter' := iter + 1
    if MAX_ITERATIONS ≤ iter' ∨ MAX_CYCLES ≤ found.length then ([], found, iter')
    else if v = start ∧ min_length ≤ path.length then
      cycleInner start current path visited min_length max_length
        rem (i + 1) (addCycle found (normalize_cycle path)) iter'
    else if v ∉ visited ∧ path.length < max_length then
      ([⟨v, path ++ [v], insert v visited, 0⟩, ⟨current, path, visited, i + 1⟩],
       found, iter')
    else
      cycleInner start current path visited min_length max_length
        rem (i + 1) found iter'

/-- The iteration counter never decreases through the neighbour loop. -/
theorem cycleInner_iter_le (start current : String) (path : List String)
    (visited : Finset String) (minL maxL : ℕ) :
    ∀ (rem : List String) (i : ℕ) (found : List (List String)) (iter : ℕ),
      iter ≤ (cycleInner start current path visited minL maxL rem i found iter).2.2
  | [], _, _, _ => le_refl _
  | v :: rem, i, found, iter => by
    unfold cycleInner
    dsimp only
    split
    · exact Nat.le_succ _
    · split
      · exact le_trans (Nat.le_succ _)
          (cycleInner_iter_le start current path visited minL maxL rem (i + 1) _ _)
      · split
        · exact Nat.le_succ _
        · exact le_trans (Nat.le_succ _)
            (cycleInner_iter_le start current path visited minL maxL rem (i + 1) _ _)

/-- The `while stack:` loop of `detect_cycles`.  `fuel` is a structural
counter for the iteration cap: every round increments the counter by at
least one, so with `fuel + iter ≥ MAX_ITERATIONS` (the loop is entered
with `fuel = MAX_ITERATIONS`) the zero-fuel case is reached only with
`iter ≥ MAX_ITERATIONS`, where it returns exactly what the source's
`iteration_count >= MAX_ITERATIONS` break returns: `(found, iter + 1)`. -/
def cycleDFS (g : TransactionGraph) (start : String) (min_length max_length : ℕ) :
    ℕ → List Frame → List (List String) → ℕ → List (List String) × ℕ
  | _, [], found, iter => (found, iter)
  | 0, _ :: _, found, iter => (found, iter + 1)
  | fuel + 1, f :: rest, found, iter =>
    let iter' := iter + 1
    if MAX_ITERATIONS ≤ iter' ∨ MAX_CYCLES ≤ found.length then (found, iter')
    else
      let neighbors := get_neighbors g f.node
      let res := cycleInner start f.node f.path f.visited min_length max_length
        (neighbors.drop f.idx) f.idx found iter'
      cycleDFS g start min_length max_length fuel (res.1 ++ rest) res.2.1 res.2.2

/-- The candidate loop of `detect_cycles`. -/
def cycleCands (g : TransactionGraph) (min_length max_length : ℕ) :
    List String → List (List String) → ℕ → List (List String) × ℕ
  | [], found, iter => (found, iter)
  | s :: rest, found, iter =>
    if MAX_CYCLES ≤ found.length ∨ MAX_ITERATIONS ≤ iter then (found, iter)
    else
      let res := cycleDFS g s min_length max_length MAX_ITERATIONS
        [⟨s, [s], {s}, 0⟩] found iter
      cycleCands g min_length max_length rest res.1 res.2

/-- `detect_cycles`: unique directed cycles of length `min_length` to
`max_length`, under the iteration and cycle caps. -/
def detect_cycles (g : TransactionGraph)
    (min_length : ℕ := 3) (max_length : ℕ := 5) : List CycleRing :=
  let candidates := List.insertionSort pyLeR (g.nodes.filter fun n =>
    match g.stats n with
    | some st => decide (0 < st.in_degree ∧ 0 < st.out_degree)
    | none => false)
  let res := cycleCands g min_length max_length candidates [] 0
  res.1.map fun k => ⟨k, k.length⟩

/-! ## Shell-network detection (`engine/detectors/shells.py`)

The recursive `_find_chains` is transcribed with the mutable `results`
and `seen` accumulators threaded through; the `fuel` argument is the
model's structural-termination counter: the source call depth is
bounded by the `hops >= MAX_CHAIN_HOPS` check, so with initial fuel
`MAX_CHAIN_HOPS` the zero-fuel branch is unreachable (each descent
increases `hops` by one and is only made while `hops < MAX_CHAIN_HOPS`).
-/

def MIN_SHELL_DEGREE : ℕ := 2

def MAX_SHELL_DEGREE : ℕ := 3

def MIN_CHAIN_HOPS : ℕ := 3

def MAX_CHAIN_HOPS : ℕ := 8

/-- A detected layered shell network chain. -/
structure ShellChain where
  members : List String
  shell_accounts : List String
  chain_length : ℕ
  deriving DecidableEq, Repr

/-- `_is_shell_account`. -/
def is_shell_account (total_degree : ℕ) : Bool :=
  MIN_SHELL_DEGREE ≤ total_degree && total_degree ≤ MAX_SHELL_DEGREE

/-- Record the path as a `ShellChain` unless an identical path was
already recorded (`seen` deduplication). -/
def pushChain (acc : List ShellChain × List (List String))
    (path shells : List String) : List ShellChain × List (List String) :=
  if path ∈ acc.2 then acc
  else (acc.1 ++ [⟨path, shells, path.length - 1⟩], acc.2 ++ [path])

/-- `_find_chains`: record the current path when it qualifies, then
extend through the neighbours (a left fold, as the Python `for` loop
threads the mutable accumulators). -/
def shellGo (g : TransactionGraph) : ℕ → String → List String → Finset String →
    List String → List ShellChain × List (List String) →
    List ShellChain × List (List String)
  | fuel, current, path, visited, shells, acc =>
    let hops := path.length - 1
    let acc1 :=
      if MIN_CHAIN_HOPS ≤ hops ∧ 1 ≤ shells.length then pushChain acc path shells
      else acc
    if MAX_CHAIN_HOPS ≤ hops then acc1
    else
      match fuel with
      | 0 => acc1
      | fuel' + 1 =>
        (get_neighbors g current).foldl (fun acc2 n =>
          if n ∈ visited then acc2
          else
            match g.stats n with
            | none => acc2
            | some st =>
              if is_shell_account st.total_degree then
                shellGo g fuel' n (path ++ [n]) (insert n visited) (shells ++ [n]) acc2
              else if 1 ≤ shells.length ∧ MIN_CHAIN_HOPS - 1 ≤ path.length - 1 then
                pushChain acc2 (path ++ [n]) shells
              else acc2) acc1

/-- `detect_shell_networks`: chains of ≥3 hops through shell-degree
intermediaries, started only from non-shell origins. -/
def detect_shell_networks (g : TransactionGraph) : List ShellChain :=
  (g.nodes.foldl (fun acc n =>
    match g.stats n with
    | some st =>
      if is_shell_account st.total_degree then acc
      else shellGo g MAX_CHAIN_HOPS n [n] {n} [] acc
    | none => shellGo g MAX_CHAIN_HOPS n [n] {n} [] acc)
    ([], [])).1

/-! ## Scoring (`engine/scorer.py`)

Scores are modelled in `ℚ`.  Every value the account scorer rounds is
an integer multiple of `1/2` (pattern bases are multiples of 10 and the
involvement factor is a multiple of `3/20`), so `round(x, 1)` never
meets a tie and the binary-double rounding of the source agrees with
exact rational rounding; `roundq1` nevertheless implements the
round-half-even rule of Python's `round`.
-/

/-- `PATTERN_BASE_SCORES.get(p, 20.0)`. -/
def pattern_base (p : String) : ℚ :=
  if p = "cycle" then 40
  else if p = "smurfing" then 30
  else if p = "layered_shell" then 30
  else 20

def MULTI_PATTERN_BONUS : ℚ := 15

/-- `RING_SEVERITY.get(pattern_type, 1.0)`. -/
def ring_severity (p : String) : ℚ :=
  if p = "cycle" then 6 / 5
  else if p = "smurfing" then 1
  else if p = "layered_shell" then 11 / 10
  else 1

/-- Round to the nearest integer, ties to even. -/
def roundHalfEven (x : ℚ) : ℤ :=
  let f := ⌊x⌋
  let r := x - f
  if r < 1 / 2 then f
  else if 1 / 2 < r then f + 1
  else if Even f then f else f + 1

/-- `round(x, 1)`. -/
def roundq1 (x : ℚ) : ℚ := (roundHalfEven (10 * x) : ℚ) / 10

/-- `score_accounts`: suspicion scores for the flagged accounts.  The
two dictionaries are insertion-ordered association lists. -/
def score_accounts (account_patterns : List (String × Finset String))
    (account_involvement : List (String × ℕ)) : List (String × ℚ) :=
  account_patterns.map fun ap =>
    let patterns := ap.2
    let base := patterns.sum pattern_base
    let involvement := ((account_involvement.find? fun p => p.1 = ap.1).map (·.2)).getD 1
    let base1 := if 1 < involvement then
        base * (1 + ((involvement - 1 : ℕ) : ℚ) * (3 / 20)) else base
    let base2 := if 1 < patterns.card then base1 + MULTI_PATTERN_BONUS else base1
    (ap.1, min (roundq1 base2) 100)

/-- `score_ring`: mean member score times the severity weight. -/
def score_ring (member_scores : List ℚ) (pattern_type : String) : ℚ :=
  if member_scores = [] then 0
  else
    let avg := member_scores.sum / member_scores.length
    min (roundq1 (avg * ring_severity pattern_type)) 100

/-! ## The analysis orchestrator (`engine/analyzer.py`)

The aggregation maps (`account_patterns`, `account_pattern_details`,
`account_ring_ids`, `account_involvement`) are insertion-ordered
association lists, as Python dictionaries are.  The detector phase's
15-second wall-clock timeout (which substitutes empty detector outputs)
is real time and outside the model; `analyze_from` is the
non-timed-out path, parameterized by the three detector outputs.
-/

/-- Association list lookup (`d.get(k)`). -/
def alGet {α : Type} (l : List (String × α)) (k : String) : Option α :=
  (l.find? fun p => p.1 = k).map (·.2)

/-- Association list update (`d[k] = v`): overwrite in place, or append
a new key at the end, as Python dict insertion order does. -/
def alSet {α : Type} (l : List (String × α)) (k : String) (v : α) :
    List (String × α) :=
  if l.any fun p => p.1 = k then
    l.map fun p => if p.1 = k then (k, v) else p
  else l ++ [(k, v)]

/-- One detected ring, as consumed by the aggregation loop. -/
inductive Hit where
  | cyc (c : CycleRing)
  | smu (r : SmurfingRing)
  | she (s : ShellChain)
  deriving DecidableEq

def Hit.members : Hit → List String
  | .cyc c => c.members
  | .smu r => r.members
  | .she s => s.members

def Hit.family : Hit → String
  | .cyc _ => "cycle"
  | .smu _ => "smurfing"
  | .she _ => "layered_shell"

/-- The granular pattern label recorded for member `m`. -/
def Hit.detail (m : String) : Hit → String
  | .cyc c => "cycle_length_" ++ toString c.length
  | .smu r => r.pattern
  | .she s => if m ∈ s.shell_accounts then "shell_intermediary" else "layered_shell"

/-- `f"RING_{n:03d}"`: decimal, zero-padded to at least three digits. -/
def pad3 (n : ℕ) : String :=
  let s := toString n
  if s.length < 3 then String.mk (List.replicate (3 - s.length) '0') ++ s else s

def ring_id_str (n : ℕ) : String := "RING_" ++ pad3 n

/-- Internal fraud-ring record (before ring scoring). -/
structure FraudRingRec where
  ring_id : String
  member_accounts : List String
  pattern_type : String
  members_raw : List String
  deriving DecidableEq

/-- The aggregation state of `analyze` step 4. -/
structure AggState where
  account_patterns : List (String × Finset String)
  account_pattern_details : List (String × Finset String)
  account_ring_ids : List (String × String)
  account_involvement : List (String × ℕ)
  fraud_rings : List FraudRingRec
  ring_counter : ℕ

def initAgg : AggState := ⟨[], [], [], [], [], 0⟩

/-- The per-member map updates of the ring-processing loops of
`analyze` (`setdefault(...).add(...)`, ring-id overwrite, involvement
increment). -/
def memberUpd (h : Hit) (rid : String) (s : AggState) (m : String) : AggState :=
  { s with
    account_patterns :=
      alSet s.account_patterns m ((alGet s.account_patterns m).getD ∅ ∪ {h.family})
    account_pattern_details :=
      alSet s.account_pattern_details m
        (insert (h.detail m) ((alGet s.account_pattern_details m).getD ∅))
    account_ring_ids := alSet s.account_ring_ids m rid
    account_involvement :=
      alSet s.account_involvement m ((alGet s.account_involvement m).getD 0 + 1) }

/-- Process one ring: bump the counter, assign its ID, update the four
per-account maps for each member, and append the ring record. -/
def processHit (st : AggState) (h : Hit) : AggState :=
  let counter := st.ring_counter + 1
  let rid := ring_id_str counter
  let st1 := h.members.foldl (memberUpd h rid) { st with ring_counter := counter }
  { st1 with
    fraud_rings := st1.fraud_rings ++ [⟨rid, h.members, h.family, h.members⟩] }

/-- Steps 4 of `analyze`: consume the detector outputs in the fixed
order cycles, smurfing rings, shell chains. -/
def aggregate (cycle_rings : List CycleRing) (smurfing_rings : List SmurfingRing)
    (shell_chains : List ShellChain) : AggState :=
  (cycle_rings.map Hit.cyc ++ smurfing_rings.map Hit.smu ++
    shell_chains.map Hit.she).foldl processHit initAgg

structure SuspiciousAccount where
  account_id : String
  suspicion_score : ℚ
  detected_patterns : List String
  ring_id : String
  deriving DecidableEq

structure FraudRingOut where
  ring_id : String
  member_accounts : List String
  pattern_type : String
  risk_score : ℚ
  deriving DecidableEq

structure GraphNode where
  id : String
  riskScore : ℚ
  suspicious : Bool
  ringId : Option String
  patternType : Option String
  totalTransactions : ℕ
  deriving DecidableEq

structure GraphEdgeOut where
  id : String
  source : String
  target : String
  amount : FloatVal
  timestamp : DateTime
  deriving DecidableEq

structure RingSnapshot where
  ringId : String
  patternType : String
  memberCount : ℕ
  riskScore : ℚ
  members : List String
  deriving DecidableEq

structure Summary where
  total_accounts_analyzed : ℕ
  suspicious_accounts_flagged : ℕ
  fraud_rings_detected : ℕ
  deriving DecidableEq

/-- The report (`processing_time_seconds` is wall-clock time, outside
the model). -/
structure Report where
  suspicious_accounts : List SuspiciousAccount
  fraud_rings : List FraudRingOut
  graph_nodes : List GraphNode
  graph_edges : List GraphEdgeOut
  graph_rings : List RingSnapshot
  summary : Summary

/-- `"shell" in s` for the ring-snapshot pattern normalization. -/
def containsShell (s : String) : Bool :=
  (List.range (s.data.length + 1)).any fun i => (s.data.drop i).take 5 = "shell".data

/-- Steps 4–7 of `analyze` on the three detector outputs: aggregate,
score, and format.  (The source iterates `graph.adj.items()` for the
edge snapshot; the model flattens in node order — no claim concerns the
edge order.) -/
def analyze_from (g : TransactionGraph) (cycle_rings : List CycleRing)
    (smurfing_rings : List SmurfingRing) (shell_chains : List ShellChain) :
    Report :=
  let st := aggregate cycle_rings smurfing_rings shell_chains
  let account_scores := score_accounts st.account_patterns st.account_involvement
  let rings_scored : List FraudRingOut := st.fraud_rings.map fun r =>
    ⟨r.ring_id, r.member_accounts, r.pattern_type,
     score_ring (r.members_raw.map fun m => (alGet account_scores m).getD 0)
       r.pattern_type⟩
  let sorted_scores := account_scores.insertionSort fun a b => b.2 ≤ a.2
  let suspicious_accounts := sorted_scores.map fun p =>
    SuspiciousAccount.mk p.1 p.2
      (listOfSet ((alGet st.account_pattern_details p.1).getD ∅))
      ((alGet st.account_ring_ids p.1).getD "UNKNOWN")
  let graph_nodes := g.nodes.map fun n =>
    let total := match g.stats n with
      | some s => s.total_txn_count
      | none => 0
    let pattern_set := (alGet st.account_patterns n).getD ∅
    -- next(iter(pattern_set), None): Python set iteration order is
    -- unspecified; the model uses the determinized order.
    let raw := (listOfSet pattern_set).head?
    let ptype := raw.map fun p => if p = "layered_shell" then "shell" else p
    GraphNode.mk n ((alGet account_scores n).getD 0) (alGet account_scores n).isSome
      (alGet st.account_ring_ids n) ptype total
  let graph_edges := g.nodes.flatMap fun sender =>
    (g.adj sender).map fun e => GraphEdgeOut.mk e.transaction_id sender e.target e.amount e.timestamp
  let graph_rings := rings_scored.map fun r =>
    RingSnapshot.mk r.ring_id
      (if containsShell r.pattern_type then "shell" else r.pattern_type)
      r.member_accounts.length r.risk_score r.member_accounts
  Report.mk suspicious_accounts rings_scored graph_nodes graph_edges graph_rings
    ⟨node_count g, suspicious_accounts.length, rings_scored.length⟩

/-- `analyze`: the full pipeline on raw CSV bytes (non-timed-out path). -/
def analyze (content : List ℕ) : Except ParseErr Report :=
  (parse_csv content).map fun transactions =>
    let g := build_graph transactions
    analyze_from g (detect_cycles g) (detect_smurfing g) (detect_shell_networks g)

/-! ## Scorer lemmas and claim C6 -/

section RatComputable

-- Core marks the rational field operations irreducible, which blocks
-- kernel evaluation of concrete scores; restore it locally.
attribute [local semireducible] Rat.add Rat.mul Rat.inv Rat.sub

/-- The per-account score formula of `score_accounts`. -/
def accountScore (P : Finset String) (k : ℕ) : ℚ :=
  let base := P.sum pattern_base
  let base1 := if 1 < k then base * (1 + ((k - 1 : ℕ) : ℚ) * (3 / 20)) else base
  let base2 := if 1 < P.card then base1 + MULTI_PATTERN_BONUS else base1
  min (roundq1 base2) 100

/-- The account-score formula as the specification words it: sum the
per-pattern bases, scale by `1 + 0.15·(k−1)` when the ring count `k`
exceeds one, add 15 when more than one pattern family is present, round
to one decimal and clamp to `[0, 100]`. -/
def specScoreC6 (P : Finset String) (k : ℕ) : ℚ :=
  let B := (if 1 < k then (P.sum pattern_base) * (1 + ((k - 1 : ℕ) : ℚ) * (3 / 20))
            else P.sum pattern_base)
    + (if 1 < P.card then 15 else 0)
  max 0 (min (roundq1 B) 100)

theorem score_accounts_alGet (ap : List (String × Finset String))
    (ai : List (String × ℕ)) (a : String) :
    alGet (score_accounts ap ai) a
      = (alGet ap a).map fun P => accountScore P ((alGet ai a).getD 1) := by
  induction ap with
  | nil => rfl
  | cons hd tl ih =>
    by_cases h : hd.1 = a
    · simp [score_accounts, alGet, List.find?, h, accountScore]
    · simpa [score_accounts, alGet, List.find?, h] using ih

theorem roundHalfEven_nonneg {x : ℚ} (hx : 0 ≤ x) : 0 ≤ roundHalfEven x := by
  have hf : (0 : ℤ) ≤ ⌊x⌋ := Int.floor_nonneg.2 hx
  unfold roundHalfEven
  dsimp only
  split
  · exact hf
  · split
    · omega
    · split
      · exact hf
      · omega

theorem pattern_base_ge (p : String) : (20 : ℚ) ≤ pattern_base p := by
  unfold pattern_base
  split
  · norm_num
  · split
    · norm_num
    · split <;> norm_num

theorem sum_pattern_base_nonneg (P : Finset String) :
    0 ≤ P.sum pattern_base :=
  Finset.sum_nonneg fun p _ => le_trans (by norm_num) (pattern_base_ge p)

theorem roundq1_nonneg {x : ℚ} (hx : 0 ≤ x) : 0 ≤ roundq1 x := by
  unfold roundq1
  have h := roundHalfEven_nonneg (x := 10 * x) (by linarith)
  positivity

theorem accountScore_eq_spec (P : Finset String) (k : ℕ) :
    accountScore P k = specScoreC6 P k := by
  unfold accountScore specScoreC6
  dsimp only
  set X := if 1 < k then (P.sum pattern_base) * (1 + ((k - 1 : ℕ) : ℚ) * (3 / 20))
    else P.sum pattern_base with hX
  have hXnn : 0 ≤ X := by
    rw [hX]
    split
    · exact mul_nonneg (sum_pattern_base_nonneg P) (by positivity)
    · exact sum_pattern_base_nonneg P
  have h2 : (if 1 < P.card then X + MULTI_PATTERN_BONUS else X)
      = X + (if 1 < P.card then 15 else 0) := by
    split <;> simp [MULTI_PATTERN_BONUS]
  rw [h2, max_eq_right]
  have hBnn : 0 ≤ X + (if 1 < P.card then (15 : ℚ) else 0) :=
    add_nonneg hXnn (by split <;> norm_num)
  exact le_min (roundq1_nonneg hBnn) (by norm_num)

/-- C6.  For an account with pattern-family set `P` and ring count `k`,
the suspicion score is `clamp(round1(B), 0, 100)` where `B` sums the
pattern bases (cycle 40, smurfing 30, layered_shell 30, default 20),
scaled by `1 + 0.15·(k−1)` when `k > 1`, plus 15 when `|P| > 1`; in
particular `P = {cycle, smurfing}` with `k = 2` scores exactly 95.5. -/
theorem C6_account_score (ap : List (String × Finset String))
    (ai : List (String × ℕ)) (a : String) (P : Finset String)
    (hP : alGet ap a = some P) :
    alGet (score_accounts ap ai) a
        = some (specScoreC6 P ((alGet ai a).getD 1)) ∧
      alGet (score_accounts [("A", ({"cycle", "smurfing"} : Finset String))]
        [("A", 2)]) "A" = some (191 / 2 : ℚ) := by
  constructor
  · rw [score_accounts_alGet, hP]
    simp only [Option.map]
    exact congrArg some (accountScore_eq_spec P _)
  · decide

/-- Witness for C6 at a concrete instance: the account `A` of the
overlap scenario (patterns cycle + smurfing, two rings) scores 95.5. -/
theorem C6_account_score_witness :
    alGet (score_accounts [("A", ({"cycle", "smurfing"} : Finset String))]
        [("A", 2)]) "A"
      = some (specScoreC6 ({"cycle", "smurfing"} : Finset String) 2) :=
  (C6_account_score [("A", ({"cycle", "smurfing"} : Finset String))]
    [("A", 2)] "A" ({"cycle", "smurfing"} : Finset String) (by decide)).1

/-! ## Aggregation lemmas and claim C7 -/

theorem alGet_cons {α : Type} (hd : String × α) (tl : List (String × α))
    (x : String) :
    alGet (hd :: tl) x = if hd.1 = x then some hd.2 else alGet tl x := by
  by_cases h : hd.1 = x <;> simp [alGet, List.find?, h]

theorem alGet_append {α : Type} (l₁ l₂ : List (String × α)) (x : String) :
    alGet (l₁ ++ l₂) x
      = match alGet l₁ x with
        | some v => some v
        | none => alGet l₂ x := by
  induction l₁ with
  | nil => simp [alGet]
  | cons hd tl ih =>
    rw [List.cons_append, alGet_cons, alGet_cons]
    by_cases h : hd.1 = x <;> simp [h, ih]

theorem alGet_isSome_any {α : Type} (l : List (String × α)) (k : String) :
    (alGet l k).isSome = l.any fun p => p.1 = k := by
  induction l with
  | nil => simp [alGet]
  | cons hd tl ih =>
    rw [alGet_cons]
    by_cases h : hd.1 = k <;> simp [h, ih]

theorem alGet_replace {α : Type} (l : List (String × α)) (k : String) (v : α)
    (x : String) :
    alGet (l.map fun p => if p.1 = k then (k, v) else p) x
      = if x = k then (alGet l k).map fun _ => v else alGet l x := by
  induction l with
  | nil => by_cases hx : x = k <;> simp [alGet, hx]
  | cons hd tl ih =>
    rw [List.map_cons]
    by_cases hhd : hd.1 = k
    · by_cases hx : x = k
      · rw [if_pos hhd]
        simp [alGet_cons, hhd, hx]
      · rw [if_pos hhd]
        have h3 : ¬ hd.1 = x := by rw [hhd]; exact fun h => hx h.symm
        have hkx : ¬ k = x := fun h => hx h.symm
        simp [alGet_cons, hx, h3, hkx, ih]
    · by_cases hx2 : hd.1 = x
      · have hxk : ¬ x = k := fun h => hhd (hx2.trans h)
        rw [if_neg hhd]
        simp [alGet_cons, hx2, hxk]
      · rw [if_neg hhd]
        simp [alGet_cons, hhd, hx2, ih]

theorem alGet_alSet {α : Type} (l : List (String × α)) (k : String) (v : α)
    (x : String) :
    alGet (alSet l k v) x = if x = k then some v else alGet l x := by
  unfold alSet
  by_cases hk : l.any fun p => p.1 = k
  · rw [if_pos hk, alGet_replace]
    by_cases hx : x = k
    · rw [if_pos hx, if_pos hx]
      have : (alGet l k).isSome := by rw [alGet_isSome_any]; exact hk
      rcases hsome : alGet l k with _ | w
      · rw [hsome] at this; simp at this
      · simp
    · rw [if_neg hx, if_neg hx]
  · rw [if_neg hk, alGet_append]
    by_cases hx : x = k
    · have : (alGet l x).isSome = false := by
        rw [alGet_isSome_any, hx]
        simp only [Bool.not_eq_true] at hk
        exact hk
      rcases hsome : alGet l x with _ | w
      · simp [hx, alGet_cons, alGet]
      · rw [hsome] at this; simp at this
    · rcases hsome : alGet l x with _ | w
      · simp [hx, Ne.symm hx, alGet_cons, alGet]
      · simp [hx]

theorem memberUpd_counter (h : Hit) (rid : String) :
    ∀ (ms : List String) (s : AggState),
      (ms.foldl (memberUpd h rid) s).ring_counter = s.ring_counter
  | [], _ => rfl
  | _ :: ms, s => memberUpd_counter h rid ms _

theorem memberUpd_rings (h : Hit) (rid : String) :
    ∀ (ms : List String) (s : AggState),
      (ms.foldl (memberUpd h rid) s).fraud_rings = s.fraud_rings
  | [], _ => rfl
  | _ :: ms, s => memberUpd_rings h rid ms _

theorem memberUpd_ringIds (h : Hit) (rid : String) :
    ∀ (ms : List String) (s : AggState) (a : String),
      alGet (ms.foldl (memberUpd h rid) s).account_ring_ids a
        = if a ∈ ms then some rid else alGet s.account_ring_ids a := by
  intro ms
  induction ms with
  | nil => simp
  | cons m ms ih =>
    intro s a
    rw [List.foldl_cons, ih]
    by_cases h1 : a ∈ ms
    · simp [h1]
    · by_cases h2 : a = m <;>
        simp [h1, h2, memberUpd, alGet_alSet]

theorem memberUpd_patterns (h : Hit) (rid : String) :
    ∀ (ms : List String) (s : AggState) (a : String),
      alGet (ms.foldl (memberUpd h rid) s).account_patterns a
        = if a ∈ ms then
            some (((alGet s.account_patterns a).getD ∅) ∪ {h.family})
          else alGet s.account_patterns a := by
  intro ms
  induction ms with
  | nil => simp
  | cons m ms ih =>
    intro s a
    rw [List.foldl_cons, ih]
    by_cases h2 : a = m
    · by_cases h1 : a ∈ ms <;>
        simp [h1, h2, memberUpd, alGet_alSet, Finset.union_assoc]
    · by_cases h1 : a ∈ ms <;>
        simp [h1, h2, memberUpd, alGet_alSet]

theorem processHit_counter (st : AggState) (h : Hit) :
    (processHit st h).ring_counter = st.ring_counter + 1 := by
  simp [processHit, memberUpd_counter]

theorem processHit_rings (st : AggState) (h : Hit) :
    (processHit st h).fraud_rings = st.fraud_rings ++
      [⟨ring_id_str (st.ring_counter + 1), h.members, h.family, h.members⟩] := by
  simp [processHit, memberUpd_rings]

theorem processHit_ringIds (st : AggState) (h : Hit) (a : String) :
    alGet (processHit st h).account_ring_ids a
      = if a ∈ h.members then some (ring_id_str (st.ring_counter + 1))
        else alGet st.account_ring_ids a := by
  simp [processHit, memberUpd_ringIds]

theorem processHit_patterns (st : AggState) (h : Hit) (a : String) :
    alGet (processHit st h).account_patterns a
      = if a ∈ h.members then
          some (((alGet st.account_patterns a).getD ∅) ∪ {h.family})
        else alGet st.account_patterns a := by
  simp [processHit, memberUpd_patterns]

/-- The ring records the aggregation appends for `hits` when the
counter starts at `c`. -/
def ringRecsFrom (c : ℕ) : List Hit → List FraudRingRec
  | [] => []
  | h :: rest =>
    ⟨ring_id_str (c + 1), h.members, h.family, h.members⟩ :: ringRecsFrom (c + 1) rest

/-- `some` of the ID of the last ring among `hits` containing `a` (with
the counter starting at `c`), or `none` if no ring contains `a`. -/
def lastRid (c : ℕ) (a : String) : List Hit → Option String
  | [] => none
  | h :: rest =>
    match lastRid (c + 1) a rest with
    | some r => some r
    | none => if a ∈ h.members then some (ring_id_str (c + 1)) else none

theorem agg_counter : ∀ (hits : List Hit) (st : AggState),
    (hits.foldl processHit st).ring_counter = st.ring_counter + hits.length
  | [], st => rfl
  | h :: rest, st => by
    rw [List.foldl_cons, agg_counter rest, processHit_counter]
    simp [Nat.add_assoc, Nat.add_comm 1]

theorem agg_rings : ∀ (hits : List Hit) (st : AggState),
    (hits.foldl processHit st).fraud_rings
      = st.fraud_rings ++ ringRecsFrom st.ring_counter hits
  | [], st => by simp [ringRecsFrom]
  | h :: rest, st => by
    rw [List.foldl_cons, agg_rings rest, processHit_rings, processHit_counter,
      ringRecsFrom]
    simp

theorem agg_ringIds : ∀ (hits : List Hit) (st : AggState) (a : String),
    alGet (hits.foldl processHit st).account_ring_ids a
      = match lastRid st.ring_counter a hits with
        | some r => some r
        | none => alGet st.account_ring_ids a
  | [], st, a => by simp [lastRid]
  | h :: rest, st, a => by
    rw [List.foldl_cons, agg_ringIds rest, processHit_ringIds, processHit_counter]
    show _ = (match lastRid st.ring_counter a (h :: rest) with
      | some r => some r
      | none => alGet st.account_ring_ids a)
    rw [lastRid]
    rcases hrest : lastRid (st.ring_counter + 1) a rest with _ | r
    · by_cases hm : a ∈ h.members <;> simp [hm]
    · simp

theorem agg_patterns_isSome : ∀ (hits : List Hit) (st : AggState) (a : String),
    (alGet (hits.foldl processHit st).account_patterns a).isSome
      = ((alGet st.account_patterns a).isSome || hits.any fun h => a ∈ h.members)
  | [], st, a => by simp
  | h :: rest, st, a => by
    rw [List.foldl_cons, agg_patterns_isSome rest, processHit_patterns]
    by_cases hm : a ∈ h.members <;> simp [hm]

theorem lastRid_isSome : ∀ (hits : List Hit) (c : ℕ) (a : String),
    (lastRid c a hits).isSome = hits.any fun h => a ∈ h.members
  | [], _, _ => rfl
  | h :: rest, c, a => by
    rw [lastRid]
    rcases hrest : lastRid (c + 1) a rest with _ | r
    · have := lastRid_isSome rest (c + 1) a
      rw [hrest] at this
      by_cases hm : a ∈ h.members <;> simp [hm, ← this]
    · have := lastRid_isSome rest (c + 1) a
      rw [hrest] at this
      simp [← this]

theorem ringRecs_map_id : ∀ (hits : List Hit) (c : ℕ),
    (ringRecsFrom c hits).map (·.ring_id)
      = (List.range hits.length).map fun i => ring_id_str (c + i + 1)
  | [], _ => rfl
  | h :: rest, c => by
    rw [ringRecsFrom, List.length_cons, List.range_succ_eq_map]
    simp only [List.map_cons, List.map_map, ringRecs_map_id rest (c + 1)]
    refine List.cons_eq_cons.mpr ⟨congrArg ring_id_str (by omega), ?_⟩
    apply List.map_congr_left
    intro i _
    simp only [Function.comp]
    exact congrArg ring_id_str (by omega)

theorem ringRecs_map_family : ∀ (hits : List Hit) (c : ℕ),
    (ringRecsFrom c hits).map (·.pattern_type) = hits.map Hit.family
  | [], _ => rfl
  | h :: rest, c => by
    rw [ringRecsFrom]
    simp [ringRecs_map_family rest (c + 1)]

theorem ringRecs_map_members : ∀ (hits : List Hit) (c : ℕ),
    (ringRecsFrom c hits).map (·.member_accounts) = hits.map Hit.members
  | [], _ => rfl
  | h :: rest, c => by
    rw [ringRecsFrom]
    simp [ringRecs_map_members rest (c + 1)]

theorem ring_id_str_ne_UNKNOWN (n : ℕ) : ring_id_str n ≠ "UNKNOWN" := by
  intro h
  have hd := congrArg String.data h
  rw [ring_id_str] at hd
  have : ("RING_" ++ pad3 n).data = 'R' :: 'I' :: 'N' :: 'G' :: '_' :: (pad3 n).data := by
    rfl
  rw [this] at hd
  exact absurd (List.head_eq_of_cons_eq hd) (by decide)

set_option maxRecDepth 4000 in
theorem pad3_spec : ∀ n < 1000, (pad3 n).length = 3 ∧ (pad3 n).data.all Char.isDigit := by
  decide

theorem mem_key_isSome {α : Type} {l : List (String × α)} {k : String} {v : α}
    (h : (k, v) ∈ l) : (alGet l k).isSome := by
  rw [alGet_isSome_any]
  exact List.any_eq_true.mpr ⟨(k, v), h, by simp⟩

theorem lastRid_shape : ∀ (hits : List Hit) (c : ℕ) (a : String) (r : String),
    lastRid c a hits = some r → ∃ n, r = ring_id_str n
  | [], _, _, _ => by simp [lastRid]
  | h :: rest, c, a, r => by
    rw [lastRid]
    rcases hrest : lastRid (c + 1) a rest with _ | w
    · by_cases hm : a ∈ h.members
      · intro he
        simp [hm] at he
        exact ⟨c + 1, he.symm⟩
      · simp [hm]
    · intro he
      simp at he
      exact lastRid_shape rest (c + 1) a r (he ▸ hrest)

/-- Every `suspicious_accounts` account key is a key of the
aggregation's pattern map. -/
theorem suspicious_key_isSome (g : TransactionGraph)
    (cycle_rings : List CycleRing) (smurfing_rings : List SmurfingRing)
    (shell_chains : List ShellChain) (e : SuspiciousAccount)
    (he : e ∈ (analyze_from g cycle_rings smurfing_rings shell_chains).suspicious_accounts) :
    (alGet (aggregate cycle_rings smurfing_rings shell_chains).account_patterns
      e.account_id).isSome ∧
    e.ring_id = (alGet (aggregate cycle_rings smurfing_rings shell_chains).account_ring_ids
      e.account_id).getD "UNKNOWN" := by
  unfold analyze_from at he
  simp only [List.mem_map] at he
  obtain ⟨p, hp, hpe⟩ := he
  have hp2 : p ∈ score_accounts (aggregate cycle_rings smurfing_rings shell_chains).account_patterns
      (aggregate cycle_rings smurfing_rings shell_chains).account_involvement :=
    (List.perm_insertionSort _ _).subset hp
  have hkey : (alGet (score_accounts _ _) p.1).isSome := mem_key_isSome (l := score_accounts _ _) (k := p.1) (v := p.2) (by simpa using hp2)
  rw [score_accounts_alGet] at hkey
  have hpat : (alGet (aggregate cycle_rings smurfing_rings shell_chains).account_patterns p.1).isSome := by
    simpa using hkey
  constructor
  · have : e.account_id = p.1 := by rw [← hpe]
    rw [this]
    exact hpat
  · rw [← hpe]

/-- C7.  Ring IDs are assigned by one counter starting at 1 over the
concatenation cycles ++ smurfing ++ shells (in detector output order);
each ID is `"RING_"` followed by the counter zero-padded to three
digits (exactly three digits while the counter is below 1000); an
account's recorded ring id is the ID of the last processed ring
containing it (`lastRid`); and no suspicious-accounts entry carries
`"UNKNOWN"`. -/
theorem C7_ring_id_assignment (cycle_rings : List CycleRing)
    (smurfing_rings : List SmurfingRing) (shell_chains : List ShellChain)
    (g : TransactionGraph) :
    ((aggregate cycle_rings smurfing_rings shell_chains).fraud_rings.map (·.ring_id)
        = (List.range (cycle_rings.length + smurfing_rings.length + shell_chains.length)).map
            fun i => ring_id_str (i + 1)) ∧
      ((aggregate cycle_rings smurfing_rings shell_chains).fraud_rings.map (·.pattern_type)
        = (cycle_rings.map Hit.cyc ++ smurfing_rings.map Hit.smu ++
            shell_chains.map Hit.she).map Hit.family) ∧
      ((aggregate cycle_rings smurfing_rings shell_chains).fraud_rings.map (·.member_accounts)
        = (cycle_rings.map Hit.cyc ++ smurfing_rings.map Hit.smu ++
            shell_chains.map Hit.she).map Hit.members) ∧
      (∀ a, alGet (aggregate cycle_rings smurfing_rings shell_chains).account_ring_ids a
        = lastRid 0 a (cycle_rings.map Hit.cyc ++ smurfing_rings.map Hit.smu ++
            shell_chains.map Hit.she)) ∧
      (∀ n, n ≤ 999 → (pad3 n).length = 3 ∧ (pad3 n).data.all Char.isDigit) ∧
      (∀ e ∈ (analyze_from g cycle_rings smurfing_rings shell_chains).suspicious_accounts,
        e.ring_id ≠ "UNKNOWN") := by
  set hits := cycle_rings.map Hit.cyc ++ smurfing_rings.map Hit.smu ++
    shell_chains.map Hit.she with hhits
  have hagg : aggregate cycle_rings smurfing_rings shell_chains
      = hits.foldl processHit initAgg := rfl
  have hnil : initAgg.fraud_rings = [] := rfl
  have hc0 : initAgg.ring_counter = 0 := rfl
  refine ⟨?_, ?_, ?_, ?_, ?_, ?_⟩
  · rw [hagg, agg_rings, hnil, hc0, List.nil_append, ringRecs_map_id]
    have hlen : hits.length = cycle_rings.length + smurfing_rings.length + shell_chains.length := by
      simp [hhits]
      omega
    rw [hlen]
    apply List.map_congr_left
    intro i _
    exact congrArg ring_id_str (by omega)
  · rw [hagg, agg_rings, hnil, List.nil_append, ringRecs_map_family]
  · rw [hagg, agg_rings, hnil, List.nil_append, ringRecs_map_members]
  · intro a
    rw [hagg, agg_ringIds, hc0]
    rcases h : lastRid 0 a hits with _ | r
    · rfl
    · rfl
  · intro n hn
    exact pad3_spec n (by omega)
  · intro e he
    obtain ⟨hpat, hrid⟩ := suspicious_key_isSome g cycle_rings smurfing_rings shell_chains e he
    rw [hagg, agg_patterns_isSome] at hpat
    have hany : hits.any (fun h => e.account_id ∈ h.members) := by
      simpa [initAgg, alGet] using hpat
    have hsome : (lastRid 0 e.account_id hits).isSome := by
      rw [lastRid_isSome]
      exact hany
    rcases hlr : lastRid 0 e.account_id hits with _ | r
    · rw [hlr] at hsome
      simp at hsome
    · obtain ⟨n, hn⟩ := lastRid_shape hits 0 e.account_id r hlr
      have : alGet (aggregate cycle_rings smurfing_rings shell_chains).account_ring_ids
          e.account_id = some r := by
        rw [hagg, agg_ringIds]
        show (match lastRid (initAgg.ring_counter) e.account_id hits with
          | some r => some r
          | none => alGet initAgg.account_ring_ids e.account_id) = some r
        rw [show initAgg.ring_counter = 0 from rfl, hlr]
      rw [hrid, this, Option.getD_some, hn]
      exact ring_id_str_ne_UNKNOWN n

/-- Witness for C7: the triangle-cycle run has a suspicious account
whose ring id is `RING_001`, not `"UNKNOWN"`, and `pad3` pads counter 7
to three digits. -/
theorem C7_ring_id_assignment_witness :
    (SuspiciousAccount.mk "A" 40 ["cycle_length_3"] "RING_001").ring_id ≠ "UNKNOWN" ∧
      (pad3 7).length = 3 :=
  ⟨(C7_ring_id_assignment [⟨["A", "B", "C"], 3⟩] [] [] emptyGraph).2.2.2.2.2
      (SuspiciousAccount.mk "A" 40 ["cycle_length_3"] "RING_001") (by decide),
   ((C7_ring_id_assignment [⟨["A", "B", "C"], 3⟩] [] [] emptyGraph).2.2.2.2.1
      7 (by norm_num)).1⟩

/-! ## Graph well-formedness and claim C10 -/

/-- Structural invariants of graphs produced by `build_graph`. -/
def GraphWF (g : TransactionGraph) : Prop :=
  g.nodes.Nodup ∧
  (∀ n, n ∈ g.nodes ↔ (g.stats n).isSome) ∧
  (∀ n, g.adj n ≠ [] → n ∈ g.nodes) ∧
  (∀ n, g.reverse_adj n ≠ [] → n ∈ g.nodes) ∧
  (∀ n e, e ∈ g.adj n → e.target ∈ g.nodes)

theorem mem_addNode (l : List String) (x n : String) :
    n ∈ addNode l x ↔ n ∈ l ∨ n = x := by
  unfold addNode
  split
  · next hx =>
    constructor
    · exact Or.inl
    · rintro (h | rfl)
      · exact h
      · exact hx
  · simp [List.mem_append]

theorem nodup_addNode (l : List String) (x : String) (h : l.Nodup) :
    (addNode l x).Nodup := by
  unfold addNode
  split
  · exact h
  · next hx => simp [List.nodup_append, h, hx]

theorem add_transaction_wf (g : TransactionGraph) (t : Transaction)
    (hg : GraphWF g) : GraphWF (add_transaction g t) := by
  obtain ⟨hnd, hst, hadj, hrev, htgt⟩ := hg
  unfold add_transaction
  dsimp only
  have hmem2 : ∀ n, n ∈ addNode (addNode g.nodes t.sender_id) t.receiver_id
      ↔ (n ∈ g.nodes ∨ n = t.sender_id ∨ n = t.receiver_id) := by
    intro n
    rw [mem_addNode, mem_addNode, or_assoc]
  refine ⟨?_, ?_, ?_, ?_, ?_⟩
  · exact nodup_addNode _ _ (nodup_addNode _ _ hnd)
  · -- stats domain = nodes
    intro n
    rw [hmem2 n]
    by_cases hr : n = t.receiver_id <;> by_cases hs : n = t.sender_id
    · simp [hr, hs, hr.symm.trans hs]
    · simp [hr, hs, show ¬ t.receiver_id = t.sender_id from fun h => hs (hr.trans h)]
    · simp [hr, hs, show ¬ t.sender_id = t.receiver_id from fun h => hr (hs.trans h)]
    · simp only [hs, hr, or_false]
      simp [hs, hr]
      exact hst n
  · -- nonempty forward adjacency only on nodes
    intro n
    dsimp only
    rw [hmem2 n]
    by_cases hs : n = t.sender_id
    · intro _; exact Or.inr (Or.inl hs)
    · rw [if_neg hs]
      intro h
      exact Or.inl (hadj n h)
  · -- nonempty reverse adjacency only on nodes
    intro n
    dsimp only
    rw [hmem2 n]
    by_cases hr : n = t.receiver_id
    · intro _; exact Or.inr (Or.inr hr)
    · rw [if_neg hr]
      intro h
      exact Or.inl (hrev n h)
  · -- forward-edge targets are nodes
    intro n e
    dsimp only
    rw [hmem2 e.target]
    by_cases hs : n = t.sender_id
    · rw [if_pos hs]
      intro he
      rcases List.mem_append.mp he with h | h
      · exact Or.inl (htgt _ _ h)
      · simp at h
        rw [h]
        exact Or.inr (Or.inr rfl)
    · rw [if_neg hs]
      intro he
      exact Or.inl (htgt _ _ he)

theorem build_graph_wf (txns : List Transaction) : GraphWF (build_graph txns) := by
  have hstep : ∀ (ts : List Transaction) (g : TransactionGraph), GraphWF g →
      GraphWF (ts.foldl add_transaction g) := by
    intro ts
    induction ts with
    | nil => intro g hg; exact hg
    | cons t ts ih =>
      intro g hg
      exact ih _ (add_transaction_wf g t hg)
  refine hstep txns emptyGraph ⟨List.nodup_nil, ?_, ?_, ?_, ?_⟩ <;>
    simp [emptyGraph]

theorem score_accounts_isSome (ap : List (String × Finset String))
    (ai : List (String × ℕ)) (a : String) :
    (alGet (score_accounts ap ai) a).isSome = (alGet ap a).isSome := by
  rw [score_accounts_alGet]
  rcases alGet ap a with _ | P <;> simp

/-- C10.  The graph snapshot has exactly one entry per node of the
built graph; an entry is `suspicious` iff its account belongs to some
detected ring; a suspicious entry's `riskScore` is that account's
suspicion score while a non-suspicious entry has `riskScore = 0` and
null `ringId`/`patternType`; and `totalTransactions` is the node's
in-degree plus out-degree. -/
theorem C10_graph_snapshot (txns : List Transaction)
    (cycle_rings : List CycleRing) (smurfing_rings : List SmurfingRing)
    (shell_chains : List ShellChain) :
    ((analyze_from (build_graph txns) cycle_rings smurfing_rings
        shell_chains).graph_nodes.map (·.id) = (build_graph txns).nodes) ∧
      (build_graph txns).nodes.Nodup ∧
      (∀ e ∈ (analyze_from (build_graph txns) cycle_rings smurfing_rings
          shell_chains).graph_nodes,
        (e.suspicious = true ↔
          (cycle_rings.map Hit.cyc ++ smurfing_rings.map Hit.smu ++
            shell_chains.map Hit.she).any fun h => e.id ∈ h.members) ∧
        (e.suspicious = true →
          alGet (score_accounts
              (aggregate cycle_rings smurfing_rings shell_chains).account_patterns
              (aggregate cycle_rings smurfing_rings shell_chains).account_involvement)
            e.id = some e.riskScore) ∧
        (e.suspicious = false →
          e.riskScore = 0 ∧ e.ringId = none ∧ e.patternType = none) ∧
        (∃ st, (build_graph txns).stats e.id = some st ∧
          e.totalTransactions = st.in_degree + st.out_degree)) := by
  obtain ⟨hnd, hst, _, _, _⟩ := build_graph_wf txns
  set g := build_graph txns with hgdef
  set hits := cycle_rings.map Hit.cyc ++ smurfing_rings.map Hit.smu ++
    shell_chains.map Hit.she with hhits
  have hagg : aggregate cycle_rings smurfing_rings shell_chains
      = hits.foldl processHit initAgg := rfl
  refine ⟨?_, hnd, ?_⟩
  · unfold analyze_from
    dsimp only
    rw [List.map_map]
    exact List.map_id'' (fun n => rfl) _
  · intro e he
    unfold analyze_from at he
    simp only [List.mem_map] at he
    obtain ⟨n, hn, hne⟩ := he
    set scores := score_accounts
      (aggregate cycle_rings smurfing_rings shell_chains).account_patterns
      (aggregate cycle_rings smurfing_rings shell_chains).account_involvement
      with hscores
    have hid : e.id = n := by rw [← hne]
    have hsusp : e.suspicious = (alGet scores n).isSome := by rw [← hne]
    have hrisk : e.riskScore = (alGet scores n).getD 0 := by rw [← hne]
    have hringId : e.ringId
        = alGet (aggregate cycle_rings smurfing_rings shell_chains).account_ring_ids n := by
      rw [← hne]
    have hkeys : (alGet scores n).isSome = hits.any fun h => n ∈ h.members := by
      rw [hscores, score_accounts_isSome, hagg, agg_patterns_isSome]
      simp [initAgg, alGet]
    refine ⟨?_, ?_, ?_, ?_⟩
    · rw [hsusp, hkeys, hid]
    · intro htrue
      rw [hsusp] at htrue
      rcases hv : alGet scores n with _ | v
      · rw [hv] at htrue; simp at htrue
      · rw [hid, hrisk, hv, Option.getD_some]
    · intro hfalse
      rw [hsusp] at hfalse
      have hnone : alGet scores n = none := by
        rcases hv : alGet scores n with _ | v
        · rfl
        · rw [hv] at hfalse; simp at hfalse
      have hanyf : (hits.any fun h => n ∈ h.members) = false := by
        rw [← hkeys, hnone]
        rfl
      refine ⟨by rw [hrisk, hnone]; rfl, ?_, ?_⟩
      · rw [hringId, hagg, agg_ringIds]
        have hlr : lastRid initAgg.ring_counter n hits = none := by
          have := lastRid_isSome hits initAgg.ring_counter n
          rw [hanyf] at this
          rcases hl : lastRid initAgg.ring_counter n hits with _ | r
          · rfl
          · rw [hl] at this; simp at this
        rw [hlr]
        rfl
      · rw [← hne]
        have hpat : alGet (aggregate cycle_rings smurfing_rings
            shell_chains).account_patterns n = none := by
          have h1 := agg_patterns_isSome hits initAgg n
          rw [← hagg] at h1
          rcases hp : alGet (aggregate cycle_rings smurfing_rings
              shell_chains).account_patterns n with _ | P
          · rfl
          · rw [hp] at h1
            simp [initAgg, alGet, hanyf] at h1
        simp [hpat, listOfSet]
        rfl
    · have hsome : (g.stats n).isSome := (hst n).mp hn
      rcases hstv : g.stats n with _ | st
      · rw [hstv] at hsome; simp at hsome
      · refine ⟨st, by rw [hid]; exact hstv, ?_⟩
        rw [← hne]
        simp only
        rw [hstv]
        rfl

/-- Witness for C10 at a concrete run: two transactions, no detected
rings — the snapshot entry for account `A` is not suspicious, has risk
0, null ring and pattern, and two total transactions. -/
theorem C10_graph_snapshot_witness :
    (GraphNode.mk "A" 0 false none none 2).suspicious = false →
      (GraphNode.mk "A" 0 false none none 2).riskScore = 0 ∧
        (GraphNode.mk "A" 0 false none none 2).ringId = none ∧
        (GraphNode.mk "A" 0 false none none 2).patternType = none :=
  ((C10_graph_snapshot
    [⟨"T1", "A", "B", .finite 5, ⟨2024, 1, 1, 0, 0, 0⟩⟩,
     ⟨"T2", "C", "A", .finite 5, ⟨2024, 1, 1, 1, 0, 0⟩⟩] [] [] []).2.2
    (GraphNode.mk "A" 0 false none none 2) (by decide)).2.2.1

/-! ## Shell-chain invariants and claim C5 -/

/-- A fold-invariant recursor (the accumulator predicate is preserved
by every step). -/
theorem foldl_inv {α β : Type} (C : β → Prop) (op : β → α → β) :
    ∀ (l : List α) (b : β), C b → (∀ b', C b' → ∀ a ∈ l, C (op b' a)) →
      C (l.foldl op b)
  | [], _, hb, _ => hb
  | a :: l, b, hb, hstep =>
    foldl_inv C op l (op b a) (hstep b hb a (by simp))
      (fun b' hb' a' ha' => hstep b' hb' a' (by simp [ha']))

/-- A forward edge from `a` to `b` exists in the graph. -/
def edgeTo (g : TransactionGraph) (a b : String) : Prop :=
  b ∈ get_neighbors g a

/-- The invariant claimed for every reported shell chain. -/
def ShellChainOk (g : TransactionGraph) (c : ShellChain) : Prop :=
  4 ≤ c.members.length ∧
  c.members.Nodup ∧
  (∀ m ∈ (c.members.drop 1).dropLast,
    ∃ st, g.stats m = some st ∧ is_shell_account st.total_degree = true) ∧
  (∃ f st, c.members.head? = some f ∧ g.stats f = some st ∧
    is_shell_account st.total_degree = false) ∧
  List.Chain' (edgeTo g) c.members ∧
  c.chain_length = c.members.length - 1

/-- The DFS path invariant of `_find_chains`. -/
def PathInv (g : TransactionGraph) (current : String) (path : List String)
    (visited : Finset String) (shells : List String) : Prop :=
  path ≠ [] ∧
  path.getLast? = some current ∧
  path.Nodup ∧
  visited = path.toFinset ∧
  List.Chain' (edgeTo g) path ∧
  shells = path.tail ∧
  (∀ m ∈ path.tail,
    ∃ st, g.stats m = some st ∧ is_shell_account st.total_degree = true) ∧
  (∃ f st, path.head? = some f ∧ g.stats f = some st ∧
    is_shell_account st.total_degree = false)

theorem pathInv_extend (g : TransactionGraph) (current n : String)
    (path : List String) (visited : Finset String) (shells : List String)
    (hinv : PathInv g current path visited shells)
    (hn : n ∈ get_neighbors g current) (hnv : n ∉ visited)
    (st : NodeStats) (hstat : g.stats n = some st)
    (hshell : is_shell_account st.total_degree = true) :
    PathInv g n (path ++ [n]) (insert n visited) (shells ++ [n]) := by
  obtain ⟨hne, hlast, hnd, hvis, hch, hsh, hshst, hhead⟩ := hinv
  have hnp : n ∉ path := by
    rw [hvis] at hnv
    simpa using hnv
  refine ⟨by simp, by simp [List.getLast?_concat], ?_, ?_, ?_, ?_, ?_, ?_⟩
  · simp [List.nodup_append, hnd, hnp]
  · rw [hvis]
    ext x
    simp [or_comm]
  · rw [List.chain'_append]
    refine ⟨hch, List.chain'_singleton n, ?_⟩
    intro x hx y hy
    simp at hy
    rw [hlast] at hx
    simp at hx
    rw [← hx, ← hy]
    exact hn
  · rcases path with _ | ⟨p, ps⟩
    · exact absurd rfl hne
    · simp at hsh ⊢
      exact hsh
  · intro m hm
    rcases path with _ | ⟨p, ps⟩
    · exact absurd rfl hne
    · simp at hm
      rcases hm with hm | hm
      · exact hshst m (by simpa using hm)
      · exact ⟨st, by rw [hm]; exact hstat, hshell⟩
  · rcases path with _ | ⟨p, ps⟩
    · exact absurd rfl hne
    · simpa using hhead

theorem chainOk_of_path (g : TransactionGraph) (path shells : List String)
    (current : String) (visited : Finset String)
    (hinv : PathInv g current path visited shells)
    (hlen : 4 ≤ path.length) :
    ShellChainOk g ⟨path, shells, path.length - 1⟩ := by
  obtain ⟨hne, _, hnd, _, hch, hsh, hshst, hhead⟩ := hinv
  refine ⟨hlen, hnd, ?_, ?_, hch, rfl⟩
  · intro m hm
    exact hshst m (List.dropLast_subset _ (by simpa [List.drop_one] using hm))
  · rcases path with _ | ⟨p, ps⟩
    · exact absurd rfl hne
    · simpa using hhead

theorem chainOk_of_endpoint (g : TransactionGraph) (path shells : List String)
    (current n : String) (visited : Finset String)
    (hinv : PathInv g current path visited shells)
    (hn : n ∈ get_neighbors g current) (hnv : n ∉ visited)
    (hlen : 3 ≤ path.length) :
    ShellChainOk g ⟨path ++ [n], shells, (path ++ [n]).length - 1⟩ := by
  obtain ⟨hne, hlast, hnd, hvis, hch, hsh, hshst, hhead⟩ := hinv
  have hnp : n ∉ path := by
    rw [hvis] at hnv
    simpa using hnv
  refine ⟨by simp; omega, by simp [List.nodup_append, hnd, hnp], ?_, ?_, ?_, rfl⟩
  · intro m hm
    rw [List.drop_append_of_le_length (by omega), List.dropLast_concat] at hm
    exact hshst m (by simpa [List.drop_one] using hm)
  · rcases path with _ | ⟨p, ps⟩
    · exact absurd rfl hne
    · simpa using hhead
  · rw [List.chain'_append]
    refine ⟨hch, List.chain'_singleton n, ?_⟩
    intro x hx y hy
    simp at hy
    rw [hlast] at hx
    simp at hx
    rw [← hx, ← hy]
    exact hn

theorem pushChain_ok (g : TransactionGraph)
    (acc : List ShellChain × List (List String)) (path shells : List String)
    (hacc : ∀ c ∈ acc.1, ShellChainOk g c)
    (hok : ShellChainOk g ⟨path, shells, path.length - 1⟩) :
    ∀ c ∈ (pushChain acc path shells).1, ShellChainOk g c := by
  unfold pushChain
  split
  · exact hacc
  · intro c hc
    rcases List.mem_append.mp hc with h | h
    · exact hacc c h
    · simp at h
      rw [h]
      exact hok

theorem shellGo_ok : ∀ (fuel : ℕ) (g : TransactionGraph) (current : String)
    (path : List String) (visited : Finset String) (shells : List String)
    (acc : List ShellChain × List (List String)),
    PathInv g current path visited shells →
    (∀ c ∈ acc.1, ShellChainOk g c) →
    ∀ c ∈ (shellGo g fuel current path visited shells acc).1, ShellChainOk g c := by
  intro fuel
  induction fuel with
  | zero =>
    intro g current path visited shells acc hinv hacc
    rw [shellGo]
    have hacc1 : ∀ c ∈ (if MIN_CHAIN_HOPS ≤ path.length - 1 ∧ 1 ≤ shells.length
        then pushChain acc path shells else acc).1, ShellChainOk g c := by
      split
      · next hcase =>
        exact pushChain_ok g acc path shells hacc
          (chainOk_of_path g path shells current visited hinv (by
            have := hcase.1
            unfold MIN_CHAIN_HOPS at this
            omega))
      · exact hacc
    split <;> exact hacc1
  | succ fuel ih =>
    intro g current path visited shells acc hinv hacc
    rw [shellGo]
    have hacc1 : ∀ c ∈ (if MIN_CHAIN_HOPS ≤ path.length - 1 ∧ 1 ≤ shells.length
        then pushChain acc path shells else acc).1, ShellChainOk g c := by
      split
      · next hcase =>
        exact pushChain_ok g acc path shells hacc
          (chainOk_of_path g path shells current visited hinv (by
            have := hcase.1
            unfold MIN_CHAIN_HOPS at this
            omega))
      · exact hacc
    split
    · exact hacc1
    · next hhops =>
      refine foldl_inv
        (fun (b : List ShellChain × List (List String)) =>
          ∀ c ∈ b.1, ShellChainOk g c) _
        (get_neighbors g current) _ hacc1 ?_
      intro b hb n hn
      by_cases hnvis : n ∈ visited
      · simp only [if_pos hnvis]
        exact hb
      · simp only [if_neg hnvis]
        rcases hstat : g.stats n with _ | st
        · exact hb
        · simp only
          by_cases hshell : is_shell_account st.total_degree = true
          · simp only [if_pos hshell]
            exact ih g n (path ++ [n]) (insert n visited) (shells ++ [n]) b
              (pathInv_extend g current n path visited shells hinv hn hnvis st
                hstat hshell) hb
          · simp only [if_neg hshell]
            by_cases hcase : 1 ≤ shells.length ∧
                MIN_CHAIN_HOPS - 1 ≤ path.length - 1
            · simp only [if_pos hcase]
              apply pushChain_ok g b (path ++ [n]) shells hb
              have h3 : 3 ≤ path.length := by
                have h2 := hcase.2
                unfold MIN_CHAIN_HOPS at h2
                have hne := hinv.1
                have : 1 ≤ path.length := List.length_pos.mpr hne
                omega
              exact chainOk_of_endpoint g path shells current n visited hinv hn
                hnvis h3
            · simp only [if_neg hcase]
              exact hb

/-- C5.  Every reported shell chain has at least four members (≥ 3
hops), duplicate-free members, shell-band total degree (2–3) on every
interior member, a first member whose total degree lies outside the
band, a forward edge between every consecutive pair, and
`chain_length = |members| - 1`. -/
theorem C5_shell_chain_invariants (txns : List Transaction) (c : ShellChain)
    (hc : c ∈ detect_shell_networks (build_graph txns)) :
    ShellChainOk (build_graph txns) c := by
  obtain ⟨_, hst, _, _, _⟩ := build_graph_wf txns
  set g := build_graph txns with hgdef
  unfold detect_shell_networks at hc
  refine foldl_inv
    (fun (acc : List ShellChain × List (List String)) =>
      ∀ c' ∈ acc.1, ShellChainOk g c') _ g.nodes ([], [])
    (fun c' hc' => absurd hc' (by simp)) ?_ c hc
  intro b hb n hn
  have hbase : PathInv g n [n] {n} [] → ∀ c' ∈ (shellGo g MAX_CHAIN_HOPS n [n]
      {n} [] b).1, ShellChainOk g c' := fun hinv =>
    shellGo_ok MAX_CHAIN_HOPS g n [n] {n} [] b hinv hb
  rcases hsome : g.stats n with _ | st
  · have : (g.stats n).isSome := (hst n).mp hn
    rw [hsome] at this
    simp at this
  · simp only
    by_cases hshell : is_shell_account st.total_degree = true
    · simp only [if_pos hshell]
      exact hb
    · simp only [if_neg hshell]
      refine hbase ⟨by simp, by simp, by simp, by simp, by simp, by simp,
        by simp, ?_⟩
      exact ⟨n, st, by simp, hsome, by simpa using hshell⟩

/-- The layered-shell end-to-end scenario: a chain `A → S1 → S2 → S3 → B`
with low-degree intermediaries and high-degree endpoints. -/
def shellScenario : List Transaction :=
  [⟨"T1", "A", "S1", .finite 100, ⟨2024, 1, 1, 0, 0, 0⟩⟩,
   ⟨"T2", "S1", "S2", .finite 100, ⟨2024, 1, 1, 1, 0, 0⟩⟩,
   ⟨"T3", "S2", "S3", .finite 100, ⟨2024, 1, 1, 2, 0, 0⟩⟩,
   ⟨"T4", "S3", "B", .finite 100, ⟨2024, 1, 1, 3, 0, 0⟩⟩,
   ⟨"P1", "A", "X1", .finite 100, ⟨2024, 1, 1, 4, 0, 0⟩⟩,
   ⟨"P2", "A", "X2", .finite 100, ⟨2024, 1, 1, 5, 0, 0⟩⟩,
   ⟨"P3", "A", "X3", .finite 100, ⟨2024, 1, 1, 6, 0, 0⟩⟩,
   ⟨"Q1", "Y1", "B", .finite 100, ⟨2024, 1, 1, 7, 0, 0⟩⟩,
   ⟨"Q2", "Y2", "B", .finite 100, ⟨2024, 1, 1, 8, 0, 0⟩⟩,
   ⟨"Q3", "Y3", "B", .finite 100, ⟨2024, 1, 1, 9, 0, 0⟩⟩]

set_option maxRecDepth 40000 in
/-- Witness for C5: the layered-shell scenario chain
`A → S1 → S2 → S3` satisfies the invariant. -/
theorem C5_shell_chain_invariants_witness :
    ShellChainOk
      (build_graph shellScenario)
      ⟨["A", "S1", "S2", "S3"], ["S1", "S2", "S3"], 3⟩ :=
  C5_shell_chain_invariants shellScenario
    ⟨["A", "S1", "S2", "S3"], ["S1", "S2", "S3"], 3⟩ (by decide)

/-! ## Cycle-detector caps and claim C9 -/

theorem cycleInner_found_le (start current : String) (path : List String)
    (visited : Finset String) (minL maxL : ℕ) :
    ∀ (rem : List String) (i : ℕ) (found : List (List String)) (iter : ℕ),
      found.length ≤ MAX_CYCLES →
      (cycleInner start current path visited minL maxL rem i found iter).2.1.length
        ≤ MAX_CYCLES
  | [], _, _, _, h => h
  | v :: rem, i, found, iter, h => by
    simp only [cycleInner]
    split
    · exact h
    · next hguard =>
      have hlt : found.length < MAX_CYCLES := by
        rcases Nat.lt_or_ge found.length MAX_CYCLES with h1 | h1
        · exact h1
        · exact absurd (Or.inr h1) hguard
      split
      · apply cycleInner_found_le start current path visited minL maxL rem (i + 1)
        unfold addCycle
        split
        · omega
        · simp
          omega
      · split
        · exact h
        · exact cycleInner_found_le start current path visited minL maxL rem
            (i + 1) found _ h

theorem cycleDFS_found_le (g : TransactionGraph) (start : String)
    (minL maxL : ℕ) :
    ∀ (fuel : ℕ) (stack : List Frame) (found : List (List String)) (iter : ℕ),
      found.length ≤ MAX_CYCLES →
      (cycleDFS g start minL maxL fuel stack found iter).1.length ≤ MAX_CYCLES
  | _, [], _, _, h => by rw [cycleDFS]; exact h
  | 0, _ :: _, _, _, h => by rw [cycleDFS]; exact h
  | fuel + 1, f :: rest, found, iter, h => by
    simp only [cycleDFS]
    split
    · exact h
    · exact cycleDFS_found_le g start minL maxL fuel _ _ _
        (cycleInner_found_le start f.node f.path f.visited minL maxL _ _ _ _ h)

theorem cycleCands_found_le (g : TransactionGraph) (minL maxL : ℕ) :
    ∀ (cands : List String) (found : List (List String)) (iter : ℕ),
      found.length ≤ MAX_CYCLES →
      (cycleCands g minL maxL cands found iter).1.length ≤ MAX_CYCLES
  | [], _, _, h => by rw [cycleCands]; exact h
  | s :: rest, found, iter, h => by
    simp only [cycleCands]
    split
    · exact h
    · exact cycleCands_found_le g minL maxL rest _ _
        (cycleDFS_found_le g s minL maxL MAX_ITERATIONS _ _ _ h)

/-- C9.  The cycle search is a total function whose result always has
at most `MAX_CYCLES = 50` rings, and once the iteration counter reaches
`MAX_ITERATIONS` (or fifty cycles are found) every level of the search
— the neighbour loop, the DFS stack loop and the candidate loop —
halts immediately, returning the cycles found so far as an ordinary
result. -/
theorem C9_termination_caps :
    (∀ (g : TransactionGraph) (minL maxL : ℕ),
      (detect_cycles g minL maxL).length ≤ MAX_CYCLES) ∧
    (∀ (start current : String) (path : List String) (visited : Finset String)
      (minL maxL : ℕ) (v : String) (rem : List String) (i : ℕ)
      (found : List (List String)) (iter : ℕ),
      MAX_ITERATIONS ≤ iter + 1 ∨ MAX_CYCLES ≤ found.length →
      cycleInner start current path visited minL maxL (v :: rem) i found iter
        = ([], found, iter + 1)) ∧
    (∀ (g : TransactionGraph) (start : String) (minL maxL fuel : ℕ) (f : Frame)
      (rest : List Frame) (found : List (List String)) (iter : ℕ),
      MAX_ITERATIONS ≤ iter + 1 ∨ MAX_CYCLES ≤ found.length →
      cycleDFS g start minL maxL fuel (f :: rest) found iter
        = (found, iter + 1)) ∧
    (∀ (g : TransactionGraph) (minL maxL : ℕ) (cands : List String)
      (found : List (List String)) (iter : ℕ),
      MAX_CYCLES ≤ found.length ∨ MAX_ITERATIONS ≤ iter →
      cycleCands g minL maxL cands found iter = (found, iter)) := by
  refine ⟨?_, ?_, ?_, ?_⟩
  · intro g minL maxL
    unfold detect_cycles
    rw [List.length_map]
    exact cycleCands_found_le g minL maxL _ [] 0 (by norm_num)
  · intro start current path visited minL maxL v rem i found iter hcap
    simp only [cycleInner]
    rw [if_pos hcap]
  · intro g start minL maxL fuel f rest found iter hcap
    match fuel with
    | 0 => rw [cycleDFS]
    | fuel + 1 =>
      simp only [cycleDFS]
      rw [if_pos hcap]
  · intro g minL maxL cands found iter hcap
    match cands with
    | [] => rw [cycleCands]
    | s :: rest =>
      simp only [cycleCands]
      rw [if_pos hcap]

/-- Witness for C9's halting conjuncts at the iteration cap. -/
theorem C9_termination_caps_witness :
    cycleInner "A" "A" ["A"] {"A"} 3 5 ["B"] 0 [] (MAX_ITERATIONS - 1)
        = ([], [], MAX_ITERATIONS) ∧
      cycleDFS emptyGraph "A" 3 5 7 [⟨"A", ["A"], {"A"}, 0⟩] []
          (MAX_ITERATIONS - 1) = ([], MAX_ITERATIONS) ∧
      cycleCands emptyGraph 3 5 ["A"] [] MAX_ITERATIONS = ([], MAX_ITERATIONS) :=
  ⟨C9_termination_caps.2.1 "A" "A" ["A"] {"A"} 3 5 "B" [] 0 []
      (MAX_ITERATIONS - 1) (by norm_num [MAX_ITERATIONS]),
   C9_termination_caps.2.2.1 emptyGraph "A" 3 5 7 ⟨"A", ["A"], {"A"}, 0⟩ [] []
      (MAX_ITERATIONS - 1) (by norm_num [MAX_ITERATIONS]),
   C9_termination_caps.2.2.2 emptyGraph 3 5 ["A"] [] MAX_ITERATIONS
      (Or.inr (le_refl _))⟩

/-! ## Cycle invariants and claim C4 -/

/-- `charsLe` is reflexive. -/
theorem charsLe_refl (a : List Char) : charsLe a a := by
  rcases charsLe_total a a with h | h <;> exact h

/-- The `min` fold either returns its initial accumulator or an element
of the list. -/
theorem foldMin_mem : ∀ (cs : List String) (m : String),
    cs.foldl (fun a x => if pyStrLe a x then a else x) m = m ∨
      cs.foldl (fun a x => if pyStrLe a x then a else x) m ∈ cs
  | [], _ => Or.inl rfl
  | c :: cs, m => by
    simp only [List.foldl_cons]
    rcases foldMin_mem cs (if pyStrLe m c then m else c) with h | h
    · rw [h]
      split
      · exact Or.inl rfl
      · exact Or.inr (by simp)
    · exact Or.inr (by simp [h])

/-- The `min` fold is a lower bound of the accumulator and of the list. -/
theorem foldMin_le : ∀ (cs : List String) (m : String),
    pyStrLe (cs.foldl (fun a x => if pyStrLe a x then a else x) m) m = true ∧
      ∀ x ∈ cs,
        pyStrLe (cs.foldl (fun a x => if pyStrLe a x then a else x) m) x = true
  | [], m => ⟨charsLe_refl m.data, by simp⟩
  | c :: cs, m => by
    simp only [List.foldl_cons]
    by_cases hmc : pyStrLe m c = true
    · rw [if_pos hmc]
      obtain ⟨h1, h2⟩ := foldMin_le cs m
      refine ⟨h1, ?_⟩
      intro x hx
      rcases List.mem_cons.mp hx with hx | hx
      · rw [hx]
        exact charsLe_trans _ _ _ h1 hmc
      · exact h2 x hx
    · rw [if_neg hmc]
      obtain ⟨h1, h2⟩ := foldMin_le cs c
      have hcm : pyStrLe c m = true := by
        rcases charsLe_total m.data c.data with h | h
        · exact absurd h hmc
        · exact h
      refine ⟨charsLe_trans _ _ _ h1 hcm, ?_⟩
      intro x hx
      rcases List.mem_cons.mp hx with hx | hx
      · rw [hx]
        exact h1
      · exact h2 x hx

/-- `min(cycle)` is a member of a nonempty cycle. -/
theorem pyMin_mem : ∀ (p : List String), p ≠ [] → pyMin p ∈ p
  | [], h => absurd rfl h
  | c :: cs, _ => by
    have he : pyMin (c :: cs)
        = cs.foldl (fun a x => if pyStrLe a x then a else x) c := rfl
    rw [he]
    rcases foldMin_mem cs c with h | h
    · rw [h]
      exact List.mem_cons_self c cs
    · exact List.mem_cons_of_mem c h

/-- `min(cycle)` is a lower bound of the cycle. -/
theorem pyMin_le : ∀ (p : List String), ∀ x ∈ p, pyStrLe (pyMin p) x = true
  | [], x, hx => absurd hx (List.not_mem_nil x)
  | c :: cs, x, hx => by
    have he : pyMin (c :: cs)
        = cs.foldl (fun a x => if pyStrLe a x then a else x) c := rfl
    rw [he]
    rcases List.mem_cons.mp hx with h | h
    · rw [h]
      exact (foldMin_le cs c).1
    · exact (foldMin_le cs c).2 x h

/-- Moving the head to the back preserves the cyclic-edge property. -/
theorem cchain_snoc (g : TransactionGraph) (a : String) (l : List String)
    (hch : List.Chain' (edgeTo g) (a :: l))
    (hcl : ∀ x ∈ (a :: l).getLast?, ∀ y ∈ (a :: l).head?, edgeTo g x y) :
    List.Chain' (edgeTo g) (l ++ [a]) ∧
      ∀ x ∈ (l ++ [a]).getLast?, ∀ y ∈ (l ++ [a]).head?, edgeTo g x y := by
  rcases l with _ | ⟨b, l'⟩
  · exact ⟨List.chain'_singleton a, by simpa using hcl⟩
  · constructor
    · rw [List.chain'_append]
      refine ⟨(List.chain'_cons.mp hch).2, List.chain'_singleton a, ?_⟩
      intro x hx y hy
      simp at hy
      rw [← hy]
      exact hcl x (by rw [List.getLast?_cons_cons]; exact hx) a rfl
    · intro x hx y hy
      rw [List.getLast?_concat] at hx
      simp at hx hy
      rw [← hx, ← hy]
      exact (List.chain'_cons.mp hch).1

/-- Rotation preserves the cyclic-edge property. -/
theorem cchain_rotate (g : TransactionGraph) :
    ∀ (n : ℕ) (p : List String),
      List.Chain' (edgeTo g) p →
      (∀ x ∈ p.getLast?, ∀ y ∈ p.head?, edgeTo g x y) →
      List.Chain' (edgeTo g) (p.rotate n) ∧
        ∀ x ∈ (p.rotate n).getLast?, ∀ y ∈ (p.rotate n).head?, edgeTo g x y
  | 0, p, hch, hcl => by rw [List.rotate_zero]; exact ⟨hch, hcl⟩
  | n + 1, [], _, _ => by
    rw [List.rotate_nil]
    exact ⟨List.chain'_nil, by simp⟩
  | n + 1, a :: l, hch, hcl => by
    rw [List.rotate_cons_succ]
    obtain ⟨h1, h2⟩ := cchain_snoc g a l hch hcl
    exact cchain_rotate g n (l ++ [a]) h1 h2

/-- `_normalize_cycle` is a rotation (by the index of the minimum). -/
theorem normalize_cycle_eq_rotate : ∀ (p : List String), p ≠ [] →
    normalize_cycle p = p.rotate (p.indexOf (pyMin p))
  | [], h => absurd rfl h
  | c :: cs, _ => by
    have hm : pyMin (c :: cs) ∈ c :: cs := pyMin_mem _ (by simp)
    have hlt := List.indexOf_lt_length.mpr hm
    rw [List.rotate_eq_drop_append_take (Nat.le_of_lt hlt)]
    rfl

/-- The normalized cycle starts with the minimum member. -/
theorem normalize_cycle_head (p : List String) (hne : p ≠ []) :
    (normalize_cycle p).head? = some (pyMin p) := by
  rw [normalize_cycle_eq_rotate p hne]
  have hm : pyMin p ∈ p := pyMin_mem p hne
  have hlt : p.indexOf (pyMin p) < p.length := List.indexOf_lt_length.mpr hm
  rw [List.head?_rotate hlt, List.getElem?_eq_getElem hlt,
    List.getElem_indexOf hlt]

/-- The invariant claimed for every recorded cycle key: member count
within the length bounds, pairwise-distinct members, a forward edge for
every consecutive pair including the wrap-around from last to first,
and the lexicographically smallest member first. -/
def CycKeyOk (g : TransactionGraph) (minL maxL : ℕ) (k : List String) : Prop :=
  minL ≤ k.length ∧ k.length ≤ maxL ∧ k.Nodup ∧
  List.Chain' (edgeTo g) k ∧
  (∀ x ∈ k.getLast?, ∀ y ∈ k.head?, edgeTo g x y) ∧
  (∀ h ∈ k.head?, ∀ x ∈ k, pyStrLe h x = true)

/-- The invariant claimed for every reported cycle ring. -/
def CycleOk (g : TransactionGraph) (minL maxL : ℕ) (c : CycleRing) : Prop :=
  CycKeyOk g minL maxL c.members ∧ c.length = c.members.length

/-- A DFS path that closes into a cycle normalizes to a good key. -/
theorem cycKeyOk_normalize (g : TransactionGraph) (minL maxL : ℕ)
    (p : List String) (hne : p ≠ [])
    (hmin : minL ≤ p.length) (hmax : p.length ≤ maxL) (hnd : p.Nodup)
    (hch : List.Chain' (edgeTo g) p)
    (hcl : ∀ x ∈ p.getLast?, ∀ y ∈ p.head?, edgeTo g x y) :
    CycKeyOk g minL maxL (normalize_cycle p) := by
  have hrot := normalize_cycle_eq_rotate p hne
  have hperm : List.Perm (normalize_cycle p) p := by
    rw [hrot]
    exact List.rotate_perm p _
  have hlen : (normalize_cycle p).length = p.length := hperm.length_eq
  refine ⟨by rw [hlen]; exact hmin, by rw [hlen]; exact hmax,
    hperm.nodup_iff.mpr hnd, ?_, ?_, ?_⟩
  · rw [hrot]
    exact (cchain_rotate g _ p hch hcl).1
  · rw [hrot]
    exact (cchain_rotate g _ p hch hcl).2
  · intro h hh x hx
    rw [normalize_cycle_head p hne] at hh
    have hhm : pyMin p = h := by simpa using hh
    rw [← hhm]
    exact pyMin_le p x (hperm.subset hx)

/-- The found-cycles accumulator invariant: duplicate-free (it models a
Python `set`) and every recorded key is a good cycle. -/
def GoodFound (g : TransactionGraph) (minL maxL : ℕ)
    (found : List (List String)) : Prop :=
  found.Nodup ∧ ∀ k ∈ found, CycKeyOk g minL maxL k

theorem goodFound_addCycle (g : TransactionGraph) (minL maxL : ℕ)
    (found : List (List String)) (k : List String)
    (hgf : GoodFound g minL maxL found) (hk : CycKeyOk g minL maxL k) :
    GoodFound g minL maxL (addCycle found k) := by
  unfold addCycle
  split
  · exact hgf
  · next hmem =>
    constructor
    · simp [List.nodup_append, hgf.1, hmem]
    · intro k' hk'
      rcases List.mem_append.mp hk' with h | h
      · exact hgf.2 k' h
      · simp at h
        rw [h]
        exact hk

/-- The DFS stack-frame invariant of `detect_cycles`: the frame's path
starts at the DFS root, ends at the frame's node, is duplicate-free,
its visited set is exactly the path, consecutive nodes are joined by
forward edges, and its length respects the maximum. -/
def FrameInvC (g : TransactionGraph) (start : String) (maxL : ℕ)
    (f : Frame) : Prop :=
  f.path ≠ [] ∧
  f.path.head? = some start ∧
  f.path.getLast? = some f.node ∧
  f.path.Nodup ∧
  f.visited = f.path.toFinset ∧
  List.Chain' (edgeTo g) f.path ∧
  f.path.length ≤ maxL

/-- The neighbour loop preserves the found-cycles invariant and only
pushes frames satisfying the stack invariant. -/
theorem cycleInner_inv (g : TransactionGraph) (start current : String)
    (path : List String) (visited : Finset String) (minL maxL : ℕ)
    (hne : path ≠ []) (hhd : path.head? = some start)
    (hlast : path.getLast? = some current) (hnd : path.Nodup)
    (hvis : visited = path.toFinset)
    (hch : List.Chain' (edgeTo g) path) (hlen : path.length ≤ maxL) :
    ∀ (rem : List String) (i : ℕ) (found : List (List String)) (iter : ℕ),
      (∀ v ∈ rem, edgeTo g current v) →
      GoodFound g minL maxL found →
      GoodFound g minL maxL
          (cycleInner start current path visited minL maxL rem i found
            iter).2.1 ∧
        ∀ f ∈ (cycleInner start current path visited minL maxL rem i found
            iter).1,
          FrameInvC g start maxL f
  | [], _, _, _, _, hgf => by
    simp only [cycleInner]
    exact ⟨hgf, by simp⟩
  | v :: rem, i, found, iter, hrem, hgf => by
    simp only [cycleInner]
    split
    · exact ⟨hgf, by simp⟩
    · split
      · next hvs =>
        have hcs : edgeTo g current start := by
          have hcv := hrem v (List.mem_cons_self v rem)
          rwa [hvs.1] at hcv
        have hcl : ∀ x ∈ path.getLast?, ∀ y ∈ path.head?, edgeTo g x y := by
          intro x hx y hy
          rw [hlast] at hx
          rw [hhd] at hy
          simp at hx hy
          rw [← hx, ← hy]
          exact hcs
        exact cycleInner_inv g start current path visited minL maxL hne hhd
          hlast hnd hvis hch hlen rem (i + 1) _ _
          (fun u hu => hrem u (List.mem_cons_of_mem v hu))
          (goodFound_addCycle g minL maxL found _ hgf
            (cycKeyOk_normalize g minL maxL path hne hvs.2 hlen hnd hch hcl))
      · split
        · next hvny =>
          refine ⟨hgf, ?_⟩
          intro f hf
          have hnp : v ∉ path := fun hmem =>
            hvny.1 (by rw [hvis]; exact List.mem_toFinset.mpr hmem)
          have hf' : f = Frame.mk v (path ++ [v]) (insert v visited) 0 ∨
              f = Frame.mk current path visited (i + 1) := by
            simpa using hf
          rcases hf' with hf1 | hf2
          · rw [hf1]
            refine ⟨by simp, ?_, ?_, ?_, ?_, ?_, ?_⟩
            · rcases path with _ | ⟨p, ps⟩
              · exact absurd rfl hne
              · simpa using hhd
            · simp
            · simp [List.nodup_append, hnd, hnp]
            · rw [hvis]
              ext x
              simp [or_comm]
            · rw [List.chain'_append]
              refine ⟨hch, List.chain'_singleton v, ?_⟩
              intro x hx y hy
              simp at hy
              rw [hlast] at hx
              simp at hx
              rw [← hx, ← hy]
              exact hrem v (List.mem_cons_self v rem)
            · simp only [List.length_append, List.length_singleton]
              omega
          · rw [hf2]
            exact ⟨hne, hhd, hlast, hnd, hvis, hch, hlen⟩
        · exact cycleInner_inv g start current path visited minL maxL hne hhd
            hlast hnd hvis hch hlen rem (i + 1) found _
            (fun u hu => hrem u (List.mem_cons_of_mem v hu)) hgf

/-- The DFS stack loop preserves the found-cycles invariant. -/
theorem cycleDFS_inv (g : TransactionGraph) (start : String) (minL maxL : ℕ) :
    ∀ (fuel : ℕ) (stack : List Frame) (found : List (List String)) (iter : ℕ),
      (∀ f ∈ stack, FrameInvC g start maxL f) →
      GoodFound g minL maxL found →
      GoodFound g minL maxL (cycleDFS g start minL maxL fuel stack found iter).1
  | _, [], _, _, _, hgf => by rw [cycleDFS]; exact hgf
  | 0, _ :: _, _, _, _, hgf => by rw [cycleDFS]; exact hgf
  | fuel + 1, f :: rest, found, iter, hstk, hgf => by
    simp only [cycleDFS]
    split
    · exact hgf
    · obtain ⟨hne, hhd, hlast, hnd, hvis, hch, hlen⟩ := hstk f (by simp)
      have hinner := cycleInner_inv g start f.node f.path f.visited minL maxL
        hne hhd hlast hnd hvis hch hlen
        ((get_neighbors g f.node).drop f.idx) f.idx found (iter + 1)
        (fun v hv => List.mem_of_mem_drop hv) hgf
      exact cycleDFS_inv g start minL maxL fuel _ _ _
        (fun fr hfr => by
          rcases List.mem_append.mp hfr with h | h
          · exact hinner.2 fr h
          · exact hstk fr (List.mem_cons_of_mem f h))
        hinner.1

/-- The candidate loop preserves the found-cycles invariant. -/
theorem cycleCands_inv (g : TransactionGraph) (minL maxL : ℕ)
    (h1 : 1 ≤ maxL) :
    ∀ (cands : List String) (found : List (List String)) (iter : ℕ),
      GoodFound g minL maxL found →
      GoodFound g minL maxL (cycleCands g minL maxL cands found iter).1
  | [], _, _, hgf => by rw [cycleCands]; exact hgf
  | s :: rest, found, iter, hgf => by
    simp only [cycleCands]
    split
    · exact hgf
    · exact cycleCands_inv g minL maxL h1 rest _ _
        (cycleDFS_inv g s minL maxL MAX_ITERATIONS
          [Frame.mk s [s] {s} 0] found iter
          (fun f hf => by
            simp only [List.mem_singleton] at hf
            rw [hf]
            exact ⟨by simp, rfl, by simp, by simp, by simp, by simp,
              by simpa using h1⟩)
          hgf)

/-- Every reported cycle ring satisfies the cycle invariant, and the
reported member lists are pairwise distinct. -/
theorem detect_cycles_inv (g : TransactionGraph) (minL maxL : ℕ)
    (h1 : 1 ≤ maxL) :
    ((detect_cycles g minL maxL).map CycleRing.members).Nodup ∧
      ∀ c ∈ detect_cycles g minL maxL, CycleOk g minL maxL c := by
  simp only [detect_cycles]
  have hgf := cycleCands_inv g minL maxL h1
    (List.insertionSort pyLeR (g.nodes.filter fun n =>
      match g.stats n with
      | some st => decide (0 < st.in_degree ∧ 0 < st.out_degree)
      | none => false)) [] 0
    ⟨List.nodup_nil, fun k hk => absurd hk (List.not_mem_nil k)⟩
  have hmapid : ∀ (L : List (List String)),
      ((L.map fun k => CycleRing.mk k k.length).map CycleRing.members) = L := by
    intro L
    rw [List.map_map]
    exact List.map_id'' (fun k => rfl) L
  constructor
  · rw [hmapid]
    exact hgf.1
  · intro c hc
    obtain ⟨k, hk, hck⟩ := List.mem_map.mp hc
    rw [← hck]
    exact ⟨hgf.2 k hk, rfl⟩

/-- Two duplicate-free rotation-equivalent lists that both start with
their lexicographic minimum are equal. -/
theorem headMin_rotated_eq (k₁ k₂ : List String)
    (hnd : k₁.Nodup)
    (hm₁ : ∀ h ∈ k₁.head?, ∀ x ∈ k₁, pyStrLe h x = true)
    (hm₂ : ∀ h ∈ k₂.head?, ∀ x ∈ k₂, pyStrLe h x = true)
    (hr : k₁.IsRotated k₂) : k₁ = k₂ := by
  obtain ⟨n, hn⟩ := hr
  rcases k₁ with _ | ⟨a, l⟩
  · rw [← hn, List.rotate_nil]
  · have hmlt : n % (a :: l).length < (a :: l).length :=
      Nat.mod_lt _ (by simp)
    have hrot : (a :: l).rotate (n % (a :: l).length) = k₂ := by
      rw [List.rotate_mod]
      exact hn
    have hpk : List.Perm k₂ (a :: l) := by
      rw [← hrot]
      exact List.rotate_perm _ _
    have hk2ne : k₂ ≠ [] := by
      intro h
      rw [h] at hpk
      have := hpk.length_eq
      simp at this
    obtain ⟨b, hb⟩ : ∃ b, k₂.head? = some b := by
      rcases k₂ with _ | ⟨b, l₂⟩
      · exact absurd rfl hk2ne
      · exact ⟨b, rfl⟩
    have hab : pyStrLe a b = true :=
      hm₁ a rfl b (hpk.mem_iff.mp (List.mem_of_mem_head? (by rw [hb]; rfl)))
    have hba : pyStrLe b a = true :=
      hm₂ b (Option.mem_def.mpr hb) a (hpk.mem_iff.mpr (by simp))
    have habeq : a = b := String.ext (charsLe_antisymm a.data b.data hab hba)
    have h1 : (a :: l)[n % (a :: l).length]? = some b := by
      rw [← List.head?_rotate hmlt, hrot]
      exact hb
    have hzero : n % (a :: l).length = 0 := by
      apply List.getElem?_inj hmlt hnd
      rw [h1]
      simp [habeq]
    rw [← hrot, hzero, List.rotate_zero]

/-- **C4**: every cycle ring reported by `detect_cycles` (bounds 3 and
5) has between 3 and 5 members, its members are pairwise distinct, a
forward edge joins every consecutive pair of members including the
wrap-around from the last back to the first, the members list starts
with the lexicographically smallest member, and its `length` field is
the member count; moreover the reported member lists are pairwise
distinct and no two reported rings are rotations of each other, so each
directed cycle appears at most once in the output. -/
theorem C4_cycle_invariants (g : TransactionGraph) :
    (∀ c ∈ detect_cycles g, CycleOk g 3 5 c) ∧
    ((detect_cycles g).map CycleRing.members).Nodup ∧
    ∀ c₁ ∈ detect_cycles g, ∀ c₂ ∈ detect_cycles g,
      c₁.members.IsRotated c₂.members → c₁ = c₂ := by
  obtain ⟨hnd, hok⟩ := detect_cycles_inv g 3 5 (by norm_num)
  refine ⟨hok, hnd, ?_⟩
  intro c₁ h₁ c₂ h₂ hr
  obtain ⟨⟨_, _, hnd₁, _, _, hm₁⟩, hl₁⟩ := hok c₁ h₁
  obtain ⟨⟨_, _, _, _, _, hm₂⟩, hl₂⟩ := hok c₂ h₂
  have hmeq : c₁.members = c₂.members :=
    headMin_rotated_eq c₁.members c₂.members hnd₁ hm₁ hm₂ hr
  rcases c₁ with ⟨m₁, len₁⟩
  rcases c₂ with ⟨m₂, len₂⟩
  have em : m₁ = m₂ := hmeq
  have e₁ : len₁ = m₁.length := hl₁
  have e₂ : len₂ = m₂.length := hl₂
  rw [em, e₁, e₂, em]

set_option maxRecDepth 40000 in
/-- Witness for C4 at a concrete three-transaction loop: the detector
reports the ring `A → B → C → A` and it satisfies the cycle
invariant. -/
theorem C4_cycle_invariants_witness :
    CycleOk (build_graph
      [⟨"T1", "A", "B", .finite 100, ⟨2024, 1, 1, 0, 0, 0⟩⟩,
       ⟨"T2", "B", "C", .finite 100, ⟨2024, 1, 1, 1, 0, 0⟩⟩,
       ⟨"T3", "C", "A", .finite 100, ⟨2024, 1, 2, 0, 0, 0⟩⟩]) 3 5
      ⟨["A", "B", "C"], 3⟩ :=
  (C4_cycle_invariants (build_graph
      [⟨"T1", "A", "B", .finite 100, ⟨2024, 1, 1, 0, 0, 0⟩⟩,
       ⟨"T2", "B", "C", .finite 100, ⟨2024, 1, 1, 1, 0, 0⟩⟩,
       ⟨"T3", "C", "A", .finite 100, ⟨2024, 1, 2, 0, 0, 0⟩⟩])).1
    ⟨["A", "B", "C"], 3⟩ (by decide)

/-! ## Smurfing-window correctness and claim C3 -/

theorem tsAt_eq (E : List Edge) (i : ℕ) (h : i < E.length) :
    tsAt E i = tsec E[i] := by
  unfold tsAt
  rw [List.getD_eq_getElem?_getD, List.getElem?_eq_getElem h]
  rfl

theorem tsAt_mono (E : List Edge) (hs : List.Sorted edgeLe E) {i j : ℕ}
    (hij : i ≤ j) (hj : j < E.length) : tsAt E i ≤ tsAt E j := by
  have hi : i < E.length := Nat.lt_of_le_of_lt hij hj
  rcases Nat.eq_or_lt_of_le hij with h | h
  · rw [h]
  · rw [tsAt_eq E i hi, tsAt_eq E j hj]
    exact @List.Sorted.rel_get_of_lt Edge edgeLe E hs ⟨i, hi⟩ ⟨j, hj⟩
      (Fin.mk_lt_mk.mpr h)

/-- When the shrink loop stops at `l ≤ r`, the window span fits 72h. -/
theorem advL_stop (E : List Edge) (r : ℕ) (hr : r < E.length) :
    ∀ (fuel l : ℕ), l ≤ r → r - l < fuel →
      l ≤ advL E r l fuel ∧ advL E r l fuel ≤ r ∧
        (tsAt E r : ℤ) - tsAt E (advL E r l fuel) ≤ (windowSec : ℤ)
  | 0, _, _, hfuel => absurd hfuel (by omega)
  | fuel + 1, l, hlr, _ => by
    simp only [advL]
    split
    · next hcond =>
      have hlner : l ≠ r := by
        intro he
        rw [he] at hcond
        have := hcond.2
        omega
      have IH := advL_stop E r hr fuel (l + 1) (by omega) (by omega)
      exact ⟨le_trans (Nat.le_succ l) IH.1, IH.2.1, IH.2.2⟩
    · next hcond =>
      refine ⟨le_refl l, hlr, ?_⟩
      push_neg at hcond
      exact hcond (Nat.lt_of_le_of_lt hlr hr)

/-- Every index the shrink loop skips is over 72h older than edge `r`. -/
theorem advL_skipped (E : List Edge) (r : ℕ) :
    ∀ (fuel l j : ℕ), l ≤ j → j < advL E r l fuel →
      (windowSec : ℤ) < (tsAt E r : ℤ) - tsAt E j
  | 0, l, j, hlj, hj => by
    rw [advL] at hj
    omega
  | fuel + 1, l, j, hlj, hj => by
    simp only [advL] at hj
    split at hj
    · next hcond =>
      rcases Nat.eq_or_lt_of_le hlj with he | hlt
      · subst he
        exact hcond.2
      · exact advL_skipped E r fuel (l + 1) j hlt hj
    · omega

theorem mem_windowTargets (E : List Edge) (l r i : ℕ) (hli : l ≤ i)
    (hir : i ≤ r) (hiE : i < E.length) :
    (E.getD i default).target ∈ windowTargets E l r := by
  unfold windowTargets
  rw [List.mem_toFinset]
  refine List.mem_map.mpr ⟨E.getD i default, ?_, rfl⟩
  apply List.getElem?_mem
  show ((E.drop l).take (r + 1 - l))[i - l]? = some (E.getD i default)
  rw [List.getElem?_take_of_lt (by omega), List.getElem?_drop]
  have hidx : l + (i - l) = i := by omega
  rw [hidx, List.getElem?_eq_getElem hiE, List.getD_eq_getElem?_getD,
    List.getElem?_eq_getElem hiE]
  rfl

theorem windowTargets_mem (E : List Edge) (l r : ℕ) (x : String)
    (hx : x ∈ windowTargets E l r) :
    ∃ i, l ≤ i ∧ i ≤ r ∧ i < E.length ∧ (E.getD i default).target = x := by
  unfold windowTargets at hx
  rw [List.mem_toFinset] at hx
  obtain ⟨e, he, hex⟩ := List.mem_map.mp hx
  obtain ⟨j, hje⟩ := List.mem_iff_getElem?.mp he
  obtain ⟨hjlt, _⟩ := List.getElem?_eq_some_iff.mp hje
  rw [List.length_take, List.length_drop] at hjlt
  have hj1 : j < r + 1 - l := Nat.lt_of_lt_of_le hjlt (min_le_left _ _)
  have hj2 : j < E.length - l := Nat.lt_of_lt_of_le hjlt (min_le_right _ _)
  rw [List.getElem?_take_of_lt hj1, List.getElem?_drop] at hje
  refine ⟨l + j, by omega, by omega, by omega, ?_⟩
  rw [List.getD_eq_getElem?_getD, hje]
  exact hex

theorem mem_windowSenders (edges : List Edge) (t : ℤ) (e : Edge)
    (he : e ∈ edges) (h1 : t ≤ (tsec e : ℤ))
    (h2 : (tsec e : ℤ) ≤ t + windowSec) :
    e.target ∈ windowSenders edges t := by
  unfold windowSenders
  rw [List.mem_toFinset]
  refine List.mem_map.mpr ⟨e, ?_, rfl⟩
  rw [List.mem_filter]
  exact ⟨he, decide_eq_true ⟨h1, h2⟩⟩

theorem windowSenders_mem (edges : List Edge) (t : ℤ) (x : String)
    (hx : x ∈ windowSenders edges t) :
    ∃ e ∈ edges, t ≤ (tsec e : ℤ) ∧ (tsec e : ℤ) ≤ t + windowSec ∧
      e.target = x := by
  unfold windowSenders at hx
  rw [List.mem_toFinset] at hx
  obtain ⟨e, he, hex⟩ := List.mem_map.mp hx
  rw [List.mem_filter] at he
  have hcond := of_decide_eq_true he.2
  exact ⟨e, he.1, hcond.1, hcond.2, hex⟩

theorem windowSenders_perm (l₁ l₂ : List Edge) (h : List.Perm l₁ l₂) (t : ℤ) :
    windowSenders l₁ t = windowSenders l₂ t := by
  unfold windowSenders
  apply List.toFinset_eq_of_perm
  exact List.Perm.map _ (List.Perm.filter _ h)

theorem windowSenders_card_le_length (edges : List Edge) (t : ℤ) :
    (windowSenders edges t).card ≤ edges.length := by
  unfold windowSenders
  have h1 := @List.toFinset_card_le String _
    ((edges.filter fun e =>
      decide (t ≤ (tsec e : ℤ) ∧ (tsec e : ℤ) ≤ t + windowSec)).map (·.target))
  rw [List.length_map] at h1
  exact le_trans h1 (List.length_filter_le _ _)

theorem windowSenders_subset_targets (edges : List Edge) (t : ℤ) :
    windowSenders edges t ⊆ (edges.map (fun e => e.target)).toFinset := by
  intro x hx
  obtain ⟨e, he, _, _, hex⟩ := windowSenders_mem edges t x hx
  rw [List.mem_toFinset]
  exact List.mem_map.mpr ⟨e, he, hex⟩

theorem hasWindow_length (edges : List Edge) (h : HasWindow edges) :
    THRESHOLD ≤ edges.length := by
  obtain ⟨t, hc⟩ := h
  exact le_trans hc (windowSenders_card_le_length edges t)

/-- Each index window whose span fits 72h is inside a real 72h window. -/
theorem windowTargets_subset_senders (E : List Edge)
    (hs : List.Sorted edgeLe E) (l r : ℕ) (hr : r < E.length) (hl : l ≤ r)
    (hdiff : (tsAt E r : ℤ) - tsAt E l ≤ (windowSec : ℤ)) :
    windowTargets E l r ⊆ windowSenders E ((tsAt E r : ℤ) - windowSec) := by
  intro x hx
  obtain ⟨i, hli, hir, hiE, hit⟩ := windowTargets_mem E l r x hx
  have h1 : tsAt E l ≤ tsAt E i := tsAt_mono E hs hli hiE
  have h2 : tsAt E i ≤ tsAt E r := tsAt_mono E hs hir hr
  rw [← hit]
  apply mem_windowSenders
  · rw [List.getD_eq_getElem?_getD, List.getElem?_eq_getElem hiE]
    exact List.getElem_mem hiE
  · show (tsAt E r : ℤ) - windowSec ≤ (tsAt E i : ℤ)
    omega
  · show (tsAt E i : ℤ) ≤ (tsAt E r : ℤ) - windowSec + windowSec
    omega

/-- Any qualifying best set the slide keeps is a real 72h window. -/
theorem slideGo_sound (E : List Edge) (hs : List.Sorted edgeLe E) :
    ∀ (fuel r l : ℕ) (best : Finset String),
      l ≤ r →
      (best.card < THRESHOLD ∨ ∃ t : ℤ, best ⊆ windowSenders E t) →
      ((slideGo E r l best fuel).card < THRESHOLD ∨
        ∃ t : ℤ, slideGo E r l best fuel ⊆ windowSenders E t)
  | 0, _, _, _, _, hgood => by rw [slideGo]; exact hgood
  | fuel + 1, r, l, best, hlr, hgood => by
    simp only [slideGo]
    split
    · next hrE =>
      have hstop := advL_stop E r hrE E.length l hlr (by omega)
      refine slideGo_sound E hs fuel (r + 1) (advL E r l E.length) _
        (le_trans hstop.2.1 (Nat.le_succ r)) ?_
      split
      · next hcur =>
        exact Or.inr ⟨(tsAt E r : ℤ) - windowSec,
          windowTargets_subset_senders E hs _ r hrE hstop.2.1 hstop.2.2⟩
      · exact hgood
    · exact hgood

/-- An already-qualifying best set never drops below threshold. -/
theorem slideGo_ge (E : List Edge) :
    ∀ (fuel r l : ℕ) (best : Finset String), THRESHOLD ≤ best.card →
      THRESHOLD ≤ (slideGo E r l best fuel).card
  | 0, _, _, _, h => by rw [slideGo]; exact h
  | fuel + 1, r, l, best, h => by
    simp only [slideGo]
    split
    · refine slideGo_ge E fuel (r + 1) (advL E r l E.length) _ ?_
      split
      · next hcur => exact hcur.1
      · exact h
    · exact h

/-- If some real 72h window qualifies, the slide finds a qualifying
window at the latest in-window index. -/
theorem slideGo_complete (E : List Edge) (hs : List.Sorted edgeLe E) (t : ℤ)
    (rstar : ℕ) (hrs : rstar < E.length)
    (hrs1 : t ≤ (tsAt E rstar : ℤ))
    (hrs2 : (tsAt E rstar : ℤ) ≤ t + windowSec)
    (hmax : ∀ i, i < E.length → t ≤ (tsAt E i : ℤ) →
      (tsAt E i : ℤ) ≤ t + windowSec → i ≤ rstar)
    (hfull : THRESHOLD ≤ (windowSenders E t).card) :
    ∀ (fuel r l : ℕ) (best : Finset String),
      E.length - r ≤ fuel → r ≤ rstar →
      (∀ i, i < E.length → t ≤ (tsAt E i : ℤ) →
        (tsAt E i : ℤ) ≤ t + windowSec → l ≤ i) →
      THRESHOLD ≤ (slideGo E r l best fuel).card
  | 0, r, _, _, hfl, hrr, _ => by omega
  | fuel + 1, r, l, best, hfl, hrr, hl => by
    simp only [slideGo]
    rw [if_pos (show r < E.length by omega)]
    have hl' : ∀ i, i < E.length → t ≤ (tsAt E i : ℤ) →
        (tsAt E i : ℤ) ≤ t + windowSec → advL E r l E.length ≤ i := by
      intro i hiE hi1 hi2
      by_contra hlt
      push_neg at hlt
      have hskip := advL_skipped E r E.length l i (hl i hiE hi1 hi2) hlt
      have hrts : tsAt E r ≤ tsAt E rstar := tsAt_mono E hs hrr hrs
      omega
    by_cases hreq : r = rstar
    · subst hreq
      apply slideGo_ge
      have hsub : windowSenders E t ⊆ windowTargets E (advL E r l E.length) r := by
        intro x hx
        obtain ⟨e, he, he1, he2, hex⟩ := windowSenders_mem E t x hx
        obtain ⟨i, hiE, hie⟩ := List.mem_iff_getElem.mp he
        have hts : tsAt E i = tsec e := by rw [tsAt_eq E i hiE, hie]
        have hi1 : t ≤ (tsAt E i : ℤ) := by rw [hts]; exact he1
        have hi2 : (tsAt E i : ℤ) ≤ t + windowSec := by rw [hts]; exact he2
        have hmem := mem_windowTargets E (advL E r l E.length) r i
          (hl' i hiE hi1 hi2) (hmax i hiE hi1 hi2) hiE
        have hgd : E.getD i default = e := by
          rw [List.getD_eq_getElem?_getD, List.getElem?_eq_getElem hiE]
          exact hie
        rw [hgd, hex] at hmem
        exact hmem
      have hcard : THRESHOLD ≤ (windowTargets E (advL E r l E.length) r).card :=
        le_trans hfull (Finset.card_le_card hsub)
      split
      · exact hcard
      · next hc =>
        push_neg at hc
        exact le_trans hcard (hc hcard)
    · exact slideGo_complete E hs t rstar hrs hrs1 hrs2 hmax hfull fuel (r + 1)
        (advL E r l E.length) _ (by omega) (by omega) hl'

/-- Soundness of `_check_temporal_window`: a returned partner set is
above threshold and witnesses a real 72-hour window. -/
theorem check_temporal_window_sound (edges : List Edge) (s : Finset String)
    (h : check_temporal_window edges = some s) :
    THRESHOLD ≤ s.card ∧ HasWindow edges := by
  simp only [check_temporal_window] at h
  split at h
  · exact absurd h (by simp)
  · split at h
    · next hcard =>
      have hbs := Option.some.inj h
      rw [← hbs]
      refine ⟨hcard, ?_⟩
      have hsorted := List.sorted_insertionSort edgeLe edges
      have hsound := slideGo_sound (edges.insertionSort edgeLe) hsorted
        (edges.insertionSort edgeLe).length 0 0 ∅ (le_refl 0)
        (Or.inl (by simp [THRESHOLD]))
      rcases hsound with hlt | ⟨t, hsub⟩
      · omega
      · refine ⟨t, ?_⟩
        have hle := Finset.card_le_card hsub
        rw [windowSenders_perm _ edges (List.perm_insertionSort edgeLe edges) t]
          at hle
        omega
    · exact absurd h (by simp)

/-- Completeness of `_check_temporal_window`: a real qualifying 72-hour
window makes it return a partner set. -/
theorem check_temporal_window_complete (edges : List Edge)
    (hw : HasWindow edges) : ∃ s, check_temporal_window edges = some s := by
  obtain ⟨t, hcard⟩ := hw
  have hlenge : THRESHOLD ≤ edges.length :=
    le_trans hcard (windowSenders_card_le_length edges t)
  have hsorted := List.sorted_insertionSort edgeLe edges
  have hperm := List.perm_insertionSort edgeLe edges
  set E := edges.insertionSort edgeLe with hE
  have hcardE : THRESHOLD ≤ (windowSenders E t).card := by
    rw [windowSenders_perm E edges hperm t]
    exact hcard
  have hTne : ((Finset.range E.length).filter fun i =>
      t ≤ (tsAt E i : ℤ) ∧ (tsAt E i : ℤ) ≤ t + windowSec).Nonempty := by
    have hpos : 0 < (windowSenders E t).card :=
      Nat.lt_of_lt_of_le (by simp [THRESHOLD]) hcardE
    obtain ⟨x, hx⟩ := Finset.card_pos.mp hpos
    obtain ⟨e, he, he1, he2, _⟩ := windowSenders_mem E t x hx
    obtain ⟨i, hiE, hie⟩ := List.mem_iff_getElem.mp he
    have hts : tsAt E i = tsec e := by rw [tsAt_eq E i hiE, hie]
    refine ⟨i, ?_⟩
    rw [Finset.mem_filter, Finset.mem_range]
    exact ⟨hiE, by rw [hts]; exact he1, by rw [hts]; exact he2⟩
  have hrmem := Finset.max'_mem _ hTne
  rw [Finset.mem_filter, Finset.mem_range] at hrmem
  have hmax : ∀ i, i < E.length → t ≤ (tsAt E i : ℤ) →
      (tsAt E i : ℤ) ≤ t + windowSec →
      i ≤ (((Finset.range E.length).filter fun i =>
        t ≤ (tsAt E i : ℤ) ∧ (tsAt E i : ℤ) ≤ t + windowSec)).max' hTne := by
    intro i hiE h1 h2
    apply Finset.le_max'
    rw [Finset.mem_filter, Finset.mem_range]
    exact ⟨hiE, h1, h2⟩
  have hbest := slideGo_complete E hsorted t _ hrmem.1 hrmem.2.1 hrmem.2.2
    hmax hcardE E.length 0 0 ∅ (by omega) (Nat.zero_le _)
    (fun i _ _ _ => Nat.zero_le i)
  refine ⟨slideGo E 0 0 ∅ E.length, ?_⟩
  simp only [check_temporal_window]
  rw [← hE]
  rw [if_neg (by omega), if_pos hbest]

theorem listOfSet_length (s : Finset String) :
    (listOfSet s).length = s.card := by
  obtain ⟨m, hm⟩ := s
  revert hm
  induction m using Quot.ind
  rename_i l
  intro hm
  show (l.insertionSort pyLeR).length = l.length
  exact (List.perm_insertionSort pyLeR l).length_eq

/-- Fan-in ring marker for a hub `m`. -/
def pin (m : String) (r : SmurfingRing) : Bool :=
  decide (r.hub_account = m ∧ r.pattern = "fan_in")

/-- Fan-out ring marker for a hub `m`. -/
def pout (m : String) (r : SmurfingRing) : Bool :=
  decide (r.hub_account = m ∧ r.pattern = "fan_out")

/-- The invariant claimed for every reported smurfing ring. -/
def SmurfRingOk (g : TransactionGraph) (r : SmurfingRing) : Prop :=
  r.hub_account ∈ g.nodes ∧ THRESHOLD ≤ r.counterparties.length ∧
  ((r.pattern = "fan_in" ∧ HasWindow (get_incoming_edges g r.hub_account)) ∨
   (r.pattern = "fan_out" ∧ HasWindow (get_outgoing_edges g r.hub_account)))

/-- The loop invariant of `detect_smurfing`: all emitted rings are
sound, each hub is flagged at most once per direction, and a flagged
hub already has its ring in the accumulator. -/
def LoopInv (g : TransactionGraph) (fin fout : Finset String)
    (results : List SmurfingRing) : Prop :=
  (∀ r ∈ results, SmurfRingOk g r) ∧
  (∀ m, results.countP (pin m) ≤ 1 ∧
    (m ∉ fin → results.countP (pin m) = 0)) ∧
  (∀ m, results.countP (pout m) ≤ 1 ∧
    (m ∉ fout → results.countP (pout m) = 0)) ∧
  (∀ m ∈ fin, ∃ r ∈ results, pin m r = true) ∧
  (∀ m ∈ fout, ∃ r ∈ results, pout m r = true)

theorem loopInv_in_some (g : TransactionGraph) (node : String)
    (fin fout : Finset String) (results : List SmurfingRing)
    (s : Finset String) (hnode : node ∈ g.nodes) (hfin : node ∉ fin)
    (hck : check_temporal_window (get_incoming_edges g node) = some s)
    (hinv : LoopInv g fin fout results) :
    LoopInv g (insert node fin) fout
      (results ++ [⟨node, listOfSet s, "fan_in", node :: listOfSet s⟩]) := by
  obtain ⟨hok, hcin, hcout, hfli, hflo⟩ := hinv
  obtain ⟨hcard, hwin⟩ := check_temporal_window_sound _ s hck
  refine ⟨?_, ?_, ?_, ?_, ?_⟩
  · intro r hr
    rcases List.mem_append.mp hr with h | h
    · exact hok r h
    · simp only [List.mem_singleton] at h
      rw [h]
      refine ⟨hnode, ?_, Or.inl ⟨rfl, hwin⟩⟩
      show THRESHOLD ≤ (listOfSet s).length
      rw [listOfSet_length]
      exact hcard
  · intro m
    rw [List.countP_append, List.countP_cons, List.countP_nil]
    by_cases hmn : m = node
    · subst hmn
      have h0 : results.countP (pin m) = 0 := (hcin m).2 hfin
      have hp : pin m (⟨m, listOfSet s, "fan_in", m :: listOfSet s⟩ :
          SmurfingRing) = true := decide_eq_true ⟨rfl, rfl⟩
      rw [h0, hp]
      exact ⟨by simp, fun hni => absurd (Finset.mem_insert_self m fin) hni⟩
    · have hp : pin m (⟨node, listOfSet s, "fan_in", node :: listOfSet s⟩ :
          SmurfingRing) = false := decide_eq_false fun h => hmn h.1.symm
      rw [hp]
      refine ⟨by simpa using (hcin m).1, fun hni => ?_⟩
      have : m ∉ fin := fun hmem =>
        hni (Finset.mem_insert_of_mem hmem)
      simpa using (hcin m).2 this
  · intro m
    rw [List.countP_append, List.countP_cons, List.countP_nil]
    have hp : pout m (⟨node, listOfSet s, "fan_in", node :: listOfSet s⟩ :
        SmurfingRing) = false :=
      decide_eq_false fun h => (show ("fan_in" : String) ≠ "fan_out" by decide) h.2
    rw [hp]
    exact ⟨by simpa using (hcout m).1, fun hno => by simpa using (hcout m).2 hno⟩
  · intro m hm
    rcases Finset.mem_insert.mp hm with h | h
    · subst h
      exact ⟨⟨m, listOfSet s, "fan_in", m :: listOfSet s⟩,
        List.mem_append_right _ (List.mem_singleton.mpr rfl),
        decide_eq_true ⟨rfl, rfl⟩⟩
    · obtain ⟨r, hr, hpr⟩ := hfli m h
      exact ⟨r, List.mem_append_left _ hr, hpr⟩
  · intro m hm
    obtain ⟨r, hr, hpr⟩ := hflo m hm
    exact ⟨r, List.mem_append_left _ hr, hpr⟩

theorem loopInv_out_some (g : TransactionGraph) (node : String)
    (fin fout : Finset String) (results : List SmurfingRing)
    (s : Finset String) (hnode : node ∈ g.nodes) (hfout : node ∉ fout)
    (hck : check_temporal_window (get_outgoing_edges g node) = some s)
    (hinv : LoopInv g fin fout results) :
    LoopInv g fin (insert node fout)
      (results ++ [⟨node, listOfSet s, "fan_out", node :: listOfSet s⟩]) := by
  obtain ⟨hok, hcin, hcout, hfli, hflo⟩ := hinv
  obtain ⟨hcard, hwin⟩ := check_temporal_window_sound _ s hck
  refine ⟨?_, ?_, ?_, ?_, ?_⟩
  · intro r hr
    rcases List.mem_append.mp hr with h | h
    · exact hok r h
    · simp only [List.mem_singleton] at h
      rw [h]
      refine ⟨hnode, ?_, Or.inr ⟨rfl, hwin⟩⟩
      show THRESHOLD ≤ (listOfSet s).length
      rw [listOfSet_length]
      exact hcard
  · intro m
    rw [List.countP_append, List.countP_cons, List.countP_nil]
    have hp : pin m (⟨node, listOfSet s, "fan_out", node :: listOfSet s⟩ :
        SmurfingRing) = false :=
      decide_eq_false fun h => (show ("fan_out" : String) ≠ "fan_in" by decide) h.2
    rw [hp]
    exact ⟨by simpa using (hcin m).1, fun hni => by simpa using (hcin m).2 hni⟩
  · intro m
    rw [List.countP_append, List.countP_cons, List.countP_nil]
    by_cases hmn : m = node
    · subst hmn
      have h0 : results.countP (pout m) = 0 := (hcout m).2 hfout
      have hp : pout m (⟨m, listOfSet s, "fan_out", m :: listOfSet s⟩ :
          SmurfingRing) = true := decide_eq_true ⟨rfl, rfl⟩
      rw [h0, hp]
      exact ⟨by simp, fun hno => absurd (Finset.mem_insert_self m fout) hno⟩
    · have hp : pout m (⟨node, listOfSet s, "fan_out", node :: listOfSet s⟩ :
          SmurfingRing) = false := decide_eq_false fun h => hmn h.1.symm
      rw [hp]
      refine ⟨by simpa using (hcout m).1, fun hno => ?_⟩
      have : m ∉ fout := fun hmem => hno (Finset.mem_insert_of_mem hmem)
      simpa using (hcout m).2 this
  · intro m hm
    obtain ⟨r, hr, hpr⟩ := hfli m hm
    exact ⟨r, List.mem_append_left _ hr, hpr⟩
  · intro m hm
    rcases Finset.mem_insert.mp hm with h | h
    · subst h
      exact ⟨⟨m, listOfSet s, "fan_out", m :: listOfSet s⟩,
        List.mem_append_right _ (List.mem_singleton.mpr rfl),
        decide_eq_true ⟨rfl, rfl⟩⟩
    · obtain ⟨r, hr, hpr⟩ := hflo m h
      exact ⟨r, List.mem_append_left _ hr, hpr⟩

/-- Resolving the fan-in step of a node pass. -/
theorem smurf_step_in (g : TransactionGraph) (node : String)
    (fin fout : Finset String) (results : List SmurfingRing)
    (hnode : node ∈ g.nodes) (hinv : LoopInv g fin fout results) :
    ∃ fin₁ results₁,
      (if THRESHOLD ≤ (get_incoming_edges g node).length ∧ node ∉ fin then
        match check_temporal_window (get_incoming_edges g node) with
        | some partners =>
          (insert node fin,
           results ++ [⟨node, listOfSet partners, "fan_in",
             node :: listOfSet partners⟩])
        | none => (fin, results)
      else (fin, results)).1 = fin₁ ∧
      (if THRESHOLD ≤ (get_incoming_edges g node).length ∧ node ∉ fin then
        match check_temporal_window (get_incoming_edges g node) with
        | some partners =>
          (insert node fin,
           results ++ [⟨node, listOfSet partners, "fan_in",
             node :: listOfSet partners⟩])
        | none => (fin, results)
      else (fin, results)).2 = results₁ ∧
      LoopInv g fin₁ fout results₁ ∧
      (∀ r ∈ results, r ∈ results₁) ∧
      (HasWindow (get_incoming_edges g node) →
        ∃ r ∈ results₁, pin node r = true) := by
  by_cases hg : THRESHOLD ≤ (get_incoming_edges g node).length ∧ node ∉ fin
  · rcases hck : check_temporal_window (get_incoming_edges g node) with _ | s
    · refine ⟨fin, results, by rw [if_pos hg], by rw [if_pos hg],
        hinv, fun r hr => hr, fun hw => ?_⟩
      obtain ⟨s', hs'⟩ := check_temporal_window_complete _ hw
      rw [hck] at hs'
      cases hs'
    · refine ⟨insert node fin,
        results ++ [⟨node, listOfSet s, "fan_in", node :: listOfSet s⟩],
        by rw [if_pos hg], by rw [if_pos hg],
        loopInv_in_some g node fin fout results s hnode hg.2 hck hinv,
        fun r hr => List.mem_append_left _ hr, fun _ =>
          ⟨⟨node, listOfSet s, "fan_in", node :: listOfSet s⟩,
           List.mem_append_right _ (List.mem_singleton.mpr rfl),
           decide_eq_true ⟨rfl, rfl⟩⟩⟩
  · refine ⟨fin, results, by rw [if_neg hg], by rw [if_neg hg], hinv,
      fun r hr => hr, fun hw => ?_⟩
    have hmem : node ∈ fin := by
      by_contra hnm
      exact hg ⟨hasWindow_length _ hw, hnm⟩
    exact hinv.2.2.2.1 node hmem

/-- Resolving the fan-out step of a node pass. -/
theorem smurf_step_out (g : TransactionGraph) (node : String)
    (fin₁ fout : Finset String) (results₁ : List SmurfingRing)
    (hnode : node ∈ g.nodes) (hinv : LoopInv g fin₁ fout results₁) :
    ∃ fout₁ results₂,
      (if THRESHOLD ≤ (get_outgoing_edges g node).length ∧ node ∉ fout then
        match check_temporal_window (get_outgoing_edges g node) with
        | some partners =>
          (insert node fout,
           results₁ ++ [⟨node, listOfSet partners, "fan_out",
             node :: listOfSet partners⟩])
        | none => (fout, results₁)
      else (fout, results₁)).1 = fout₁ ∧
      (if THRESHOLD ≤ (get_outgoing_edges g node).length ∧ node ∉ fout then
        match check_temporal_window (get_outgoing_edges g node) with
        | some partners =>
          (insert node fout,
           results₁ ++ [⟨node, listOfSet partners, "fan_out",
             node :: listOfSet partners⟩])
        | none => (fout, results₁)
      else (fout, results₁)).2 = results₂ ∧
      LoopInv g fin₁ fout₁ results₂ ∧
      (∀ r ∈ results₁, r ∈ results₂) ∧
      (HasWindow (get_outgoing_edges g node) →
        ∃ r ∈ results₂, pout node r = true) := by
  by_cases hg : THRESHOLD ≤ (get_outgoing_edges g node).length ∧ node ∉ fout
  · rcases hck : check_temporal_window (get_outgoing_edges g node) with _ | s
    · refine ⟨fout, results₁, by rw [if_pos hg], by rw [if_pos hg],
        hinv, fun r hr => hr, fun hw => ?_⟩
      obtain ⟨s', hs'⟩ := check_temporal_window_complete _ hw
      rw [hck] at hs'
      cases hs'
    · refine ⟨insert node fout,
        results₁ ++ [⟨node, listOfSet s, "fan_out", node :: listOfSet s⟩],
        by rw [if_pos hg], by rw [if_pos hg],
        loopInv_out_some g node fin₁ fout results₁ s hnode hg.2 hck hinv,
        fun r hr => List.mem_append_left _ hr, fun _ =>
          ⟨⟨node, listOfSet s, "fan_out", node :: listOfSet s⟩,
           List.mem_append_right _ (List.mem_singleton.mpr rfl),
           decide_eq_true ⟨rfl, rfl⟩⟩⟩
  · refine ⟨fout, results₁, by rw [if_neg hg], by rw [if_neg hg], hinv,
      fun r hr => hr, fun hw => ?_⟩
    have hmem : node ∈ fout := by
      by_contra hnm
      exact hg ⟨hasWindow_length _ hw, hnm⟩
    exact hinv.2.2.2.2 node hmem

/-- One node pass of `detect_smurfing`, as a state transition. -/
theorem smurfLoop_step (g : TransactionGraph) (node : String)
    (rest : List String) (fin fout : Finset String)
    (results : List SmurfingRing)
    (hnode : node ∈ g.nodes) (hinv : LoopInv g fin fout results) :
    ∃ fin₁ fout₁ results₂,
      smurfLoop g (node :: rest) fin fout results =
        smurfLoop g rest fin₁ fout₁ results₂ ∧
      LoopInv g fin₁ fout₁ results₂ ∧
      (∀ r ∈ results, r ∈ results₂) ∧
      (HasWindow (get_incoming_edges g node) →
        ∃ r ∈ results₂, pin node r = true) ∧
      (HasWindow (get_outgoing_edges g node) →
        ∃ r ∈ results₂, pout node r = true) := by
  obtain ⟨fin₁, results₁, heq1a, heq1b, hinv1, hmono1, hcomp1⟩ :=
    smurf_step_in g node fin fout results hnode hinv
  obtain ⟨fout₁, results₂, heq2a, heq2b, hinv2, hmono2, hcomp2⟩ :=
    smurf_step_out g node fin₁ fout results₁ hnode hinv1
  refine ⟨fin₁, fout₁, results₂, ?_, hinv2,
    fun r hr => hmono2 r (hmono1 r hr),
    fun hw => ?_, hcomp2⟩
  · simp only [smurfLoop]
    rw [heq1a, heq1b, heq2a, heq2b]
  · obtain ⟨r, hr, hpr⟩ := hcomp1 hw
    exact ⟨r, hmono2 r hr, hpr⟩

/-- The full loop of `detect_smurfing` preserves the invariant, only
grows the result list, and flags every hub that has a qualifying
window. -/
theorem smurfLoop_master (g : TransactionGraph) :
    ∀ (nodes : List String) (fin fout : Finset String)
      (results : List SmurfingRing),
      (∀ x ∈ nodes, x ∈ g.nodes) →
      LoopInv g fin fout results →
      (∃ fin2 fout2, LoopInv g fin2 fout2
        (smurfLoop g nodes fin fout results)) ∧
      (∀ r ∈ results, r ∈ smurfLoop g nodes fin fout results) ∧
      (∀ m ∈ nodes, HasWindow (get_incoming_edges g m) →
        ∃ r ∈ smurfLoop g nodes fin fout results, pin m r = true) ∧
      (∀ m ∈ nodes, HasWindow (get_outgoing_edges g m) →
        ∃ r ∈ smurfLoop g nodes fin fout results, pout m r = true)
  | [], fin, fout, results, _, hinv => by
    rw [smurfLoop]
    exact ⟨⟨fin, fout, hinv⟩, fun r hr => hr,
      fun m hm => absurd hm (List.not_mem_nil m),
      fun m hm => absurd hm (List.not_mem_nil m)⟩
  | node :: rest, fin, fout, results, hsub, hinv => by
    have hnode : node ∈ g.nodes := hsub node (List.mem_cons_self node rest)
    have hsub' : ∀ x ∈ rest, x ∈ g.nodes :=
      fun x hx => hsub x (List.mem_cons_of_mem node hx)
    obtain ⟨fin₁, fout₁, results₂, heq, hinv₂, hmono, hcompin, hcompout⟩ :=
      smurfLoop_step g node rest fin fout results hnode hinv
    have IH := smurfLoop_master g rest fin₁ fout₁ results₂ hsub' hinv₂
    rw [heq]
    refine ⟨IH.1, fun r hr => IH.2.1 r (hmono r hr), ?_, ?_⟩
    · intro m hm hw
      rcases List.mem_cons.mp hm with h | h
      · subst h
        obtain ⟨r, hr, hpr⟩ := hcompin hw
        exact ⟨r, IH.2.1 r hr, hpr⟩
      · exact IH.2.2.1 m h hw
    · intro m hm hw
      rcases List.mem_cons.mp hm with h | h
      · subst h
        obtain ⟨r, hr, hpr⟩ := hcompout hw
        exact ⟨r, IH.2.1 r hr, hpr⟩
      · exact IH.2.2.2 m h hw

/-- **C3**: `detect_smurfing` emits a fan-in ring with hub `n` exactly
when `n` is a node whose incoming edges contain at least `THRESHOLD`
distinct senders inside some inclusive 72-hour window (and the fan-out
analogue over outgoing edges and receivers); every emitted ring has at
least `THRESHOLD` counterparties, and at most one ring per node is
emitted in each direction. -/
theorem C3_smurfing_window_iff (g : TransactionGraph) (n : String) :
    ((∃ r ∈ detect_smurfing g, r.hub_account = n ∧ r.pattern = "fan_in") ↔
      n ∈ g.nodes ∧ HasWindow (get_incoming_edges g n)) ∧
    ((∃ r ∈ detect_smurfing g, r.hub_account = n ∧ r.pattern = "fan_out") ↔
      n ∈ g.nodes ∧ HasWindow (get_outgoing_edges g n)) ∧
    (∀ r ∈ detect_smurfing g, THRESHOLD ≤ r.counterparties.length) ∧
    (detect_smurfing g).countP (pin n) ≤ 1 ∧
    (detect_smurfing g).countP (pout n) ≤ 1 := by
  have hempty : LoopInv g ∅ ∅ [] := by
    refine ⟨fun r hr => absurd hr (List.not_mem_nil r),
      fun m => ⟨by simp, fun _ => by simp⟩,
      fun m => ⟨by simp, fun _ => by simp⟩,
      fun m hm => absurd hm (Finset.not_mem_empty m),
      fun m hm => absurd hm (Finset.not_mem_empty m)⟩
  obtain ⟨⟨fin2, fout2, hinv⟩, hmono, hcin, hcout⟩ :=
    smurfLoop_master g g.nodes ∅ ∅ [] (fun x hx => hx) hempty
  show _ ∧ _ ∧ _ ∧ _ ∧ _
  refine ⟨⟨?_, ?_⟩, ⟨?_, ?_⟩, ?_, ?_, ?_⟩
  · rintro ⟨r, hr, hhub, hpat⟩
    obtain ⟨hmem, _, hdisj⟩ := hinv.1 r hr
    refine ⟨hhub ▸ hmem, ?_⟩
    rcases hdisj with ⟨_, hw⟩ | ⟨hp2, _⟩
    · rw [hhub] at hw
      exact hw
    · rw [hpat] at hp2
      exact absurd hp2 (by decide)
  · rintro ⟨hmem, hw⟩
    obtain ⟨r, hr, hp⟩ := hcin n hmem hw
    exact ⟨r, hr, of_decide_eq_true hp⟩
  · rintro ⟨r, hr, hhub, hpat⟩
    obtain ⟨hmem, _, hdisj⟩ := hinv.1 r hr
    refine ⟨hhub ▸ hmem, ?_⟩
    rcases hdisj with ⟨hp2, _⟩ | ⟨_, hw⟩
    · rw [hpat] at hp2
      exact absurd hp2 (by decide)
    · rw [hhub] at hw
      exact hw
  · rintro ⟨hmem, hw⟩
    obtain ⟨r, hr, hp⟩ := hcout n hmem hw
    exact ⟨r, hr, of_decide_eq_true hp⟩
  · intro r hr
    exact (hinv.1 r hr).2.1
  · exact (hinv.2.1 n).1
  · exact (hinv.2.2.1 n).1

/-- Ten distinct senders paying `H` within nine hours. -/
def smurfTenScenario : List Transaction :=
  [⟨"T1", "S1", "H", .finite 10, ⟨2024, 1, 1, 0, 0, 0⟩⟩,
   ⟨"T2", "S2", "H", .finite 10, ⟨2024, 1, 1, 1, 0, 0⟩⟩,
   ⟨"T3", "S3", "H", .finite 10, ⟨2024, 1, 1, 2, 0, 0⟩⟩,
   ⟨"T4", "S4", "H", .finite 10, ⟨2024, 1, 1, 3, 0, 0⟩⟩,
   ⟨"T5", "S5", "H", .finite 10, ⟨2024, 1, 1, 4, 0, 0⟩⟩,
   ⟨"T6", "S6", "H", .finite 10, ⟨2024, 1, 1, 5, 0, 0⟩⟩,
   ⟨"T7", "S7", "H", .finite 10, ⟨2024, 1, 1, 6, 0, 0⟩⟩,
   ⟨"T8", "S8", "H", .finite 10, ⟨2024, 1, 1, 7, 0, 0⟩⟩,
   ⟨"T9", "S9", "H", .finite 10, ⟨2024, 1, 1, 8, 0, 0⟩⟩,
   ⟨"T10", "S10", "H", .finite 10, ⟨2024, 1, 1, 9, 0, 0⟩⟩]

/-- Only nine distinct senders paying `H`. -/
def smurfNineScenario : List Transaction :=
  [⟨"T1", "S1", "H", .finite 10, ⟨2024, 1, 1, 0, 0, 0⟩⟩,
   ⟨"T2", "S2", "H", .finite 10, ⟨2024, 1, 1, 1, 0, 0⟩⟩,
   ⟨"T3", "S3", "H", .finite 10, ⟨2024, 1, 1, 2, 0, 0⟩⟩,
   ⟨"T4", "S4", "H", .finite 10, ⟨2024, 1, 1, 3, 0, 0⟩⟩,
   ⟨"T5", "S5", "H", .finite 10, ⟨2024, 1, 1, 4, 0, 0⟩⟩,
   ⟨"T6", "S6", "H", .finite 10, ⟨2024, 1, 1, 5, 0, 0⟩⟩,
   ⟨"T7", "S7", "H", .finite 10, ⟨2024, 1, 1, 6, 0, 0⟩⟩,
   ⟨"T8", "S8", "H", .finite 10, ⟨2024, 1, 1, 7, 0, 0⟩⟩,
   ⟨"T9", "S9", "H", .finite 10, ⟨2024, 1, 1, 8, 0, 0⟩⟩]

set_option maxRecDepth 40000 in
/-- Witness for C3: with ten distinct senders inside 72 hours the hub
`H` is flagged fan-in; with only nine distinct senders it is not. -/
theorem C3_smurfing_window_iff_witness :
    (∃ r ∈ detect_smurfing (build_graph smurfTenScenario),
        r.hub_account = "H" ∧ r.pattern = "fan_in") ∧
      ¬∃ r ∈ detect_smurfing (build_graph smurfNineScenario),
        r.hub_account = "H" ∧ r.pattern = "fan_in" :=
  ⟨(C3_smurfing_window_iff (build_graph smurfTenScenario) "H").1.mpr
      ⟨by decide, ⟨(toSec ⟨2024, 1, 1, 0, 0, 0⟩ : ℤ), by decide⟩⟩,
   fun h => by
     obtain ⟨-, t, hcard⟩ :=
       (C3_smurfing_window_iff (build_graph smurfNineScenario) "H").1.mp h
     have h1 := Finset.card_le_card (windowSenders_subset_targets
       (get_incoming_edges (build_graph smurfNineScenario) "H") t)
     have h2 : (((get_incoming_edges (build_graph smurfNineScenario)
         "H").map (fun e => e.target)).toFinset).card = 9 := by decide
     have h3 : THRESHOLD = 10 := rfl
     omega⟩

/-! ## Parser row invariants and claims C1, C2, C8 -/

/-- A caught field-lookup failure is a `KeyError` skip or an escaping
`AttributeError` — never any other outcome. -/
theorem getFields_inl (fieldnames row : List String) (o : RowOutcome)
    (h : getFields fieldnames row = some (Sum.inl o)) :
    o = .skipMissingKey ∨ o = .attrError := by
  simp only [getFields] at h
  repeat' split at h
  all_goals simp_all

/-- A row is skipped as a duplicate only when its trimmed id is in the
`seen_ids` set (which also contains ids of earlier rejected rows). -/
theorem rowProc_dup (fieldnames : List String) (seen : Finset String)
    (row : List String) (id : String)
    (h : (rowProc fieldnames seen row).1 = .skipDup id) : id ∈ seen := by
  rcases hgf : getFields fieldnames row with _ | o
  · simp only [rowProc, hgf] at h
    exact RowOutcome.noConfusion h
  · rcases o with o | ⟨v1, v2, v3, v4, v5⟩
    · simp only [rowProc, hgf] at h
      rcases getFields_inl fieldnames row o hgf with h1 | h1 <;>
        rw [h1] at h <;> exact RowOutcome.noConfusion h
    · simp only [rowProc, hgf] at h
      split at h
      · exact RowOutcome.noConfusion h
      · split at h
        · next hdup =>
          exact (RowOutcome.skipDup.inj h) ▸ hdup
        · split at h
          · exact RowOutcome.noConfusion h
          · split at h
            · exact RowOutcome.noConfusion h
            · split at h
              · exact RowOutcome.noConfusion h
              · split at h
                · exact RowOutcome.noConfusion h
                · exact RowOutcome.noConfusion h

/-- A row rejected for a self-loop, bad amount or bad timestamp still
inserts its (fresh) id into `seen_ids`. -/
theorem rowProc_rejected_insert (fieldnames : List String)
    (seen : Finset String) (row : List String) (o : RowOutcome)
    (seen' : Finset String)
    (hrp : rowProc fieldnames seen row = (o, seen'))
    (h : o = .skipSelfLoop ∨ o = .skipAmount ∨ o = .skipTimestamp) :
    ∃ id, id ∉ seen ∧ seen' = insert id seen := by
  rcases hgf : getFields fieldnames row with _ | o'
  · simp only [rowProc, hgf] at hrp
    obtain ⟨h1, h2⟩ := Prod.mk.inj hrp
    rcases h with h | h | h <;> rw [← h1] at h <;> exact RowOutcome.noConfusion h
  · rcases o' with o' | ⟨v1, v2, v3, v4, v5⟩
    · simp only [rowProc, hgf] at hrp
      obtain ⟨h1, h2⟩ := Prod.mk.inj hrp
      rcases getFields_inl fieldnames row o' hgf with he | he <;>
        rw [he] at h1 <;> rcases h with h | h | h <;> rw [← h1] at h <;>
        exact RowOutcome.noConfusion h
    · simp only [rowProc, hgf] at hrp
      split at hrp
      · obtain ⟨h1, h2⟩ := Prod.mk.inj hrp
        rcases h with h | h | h <;> rw [← h1] at h <;>
          exact RowOutcome.noConfusion h
      · split at hrp
        · obtain ⟨h1, h2⟩ := Prod.mk.inj hrp
          rcases h with h | h | h <;> rw [← h1] at h <;>
            exact RowOutcome.noConfusion h
        · next hdup =>
          split at hrp
          · obtain ⟨h1, h2⟩ := Prod.mk.inj hrp
            exact ⟨pyStrip v1, hdup, h2.symm⟩
          · split at hrp
            · obtain ⟨h1, h2⟩ := Prod.mk.inj hrp
              exact ⟨pyStrip v1, hdup, h2.symm⟩
            · split at hrp
              · obtain ⟨h1, h2⟩ := Prod.mk.inj hrp
                exact ⟨pyStrip v1, hdup, h2.symm⟩
              · split at hrp
                · obtain ⟨h1, h2⟩ := Prod.mk.inj hrp
                  exact ⟨pyStrip v1, hdup, h2.symm⟩
                · obtain ⟨h1, h2⟩ := Prod.mk.inj hrp
                  rcases h with h | h | h <;> rw [← h1] at h <;>
                    exact RowOutcome.noConfusion h

/-- What acceptance guarantees at the row level: distinct sender and
receiver, amount not `<= 0` under IEEE comparison, and a timestamp some
string parses to under `strptime`. -/
theorem rowProc_accepted (fieldnames : List String) (seen : Finset String)
    (row : List String) (t : Transaction)
    (h : (rowProc fieldnames seen row).1 = .accepted t) :
    t.sender_id ≠ t.receiver_id ∧
      FloatVal.fle t.amount (.finite 0) = false ∧
      ∃ s, parseTs s = some t.timestamp := by
  rcases hgf : getFields fieldnames row with _ | o
  · simp only [rowProc, hgf] at h
    exact RowOutcome.noConfusion h
  · rcases o with o | ⟨v1, v2, v3, v4, v5⟩
    · simp only [rowProc, hgf] at h
      rcases getFields_inl fieldnames row o hgf with h1 | h1 <;>
        rw [h1] at h <;> exact RowOutcome.noConfusion h
    · simp only [rowProc, hgf] at h
      split at h
      · exact RowOutcome.noConfusion h
      · split at h
        · exact RowOutcome.noConfusion h
        · split at h
          · exact RowOutcome.noConfusion h
          · next hsr =>
            split at h
            · exact RowOutcome.noConfusion h
            · next amount hamt =>
              split at h
              · exact RowOutcome.noConfusion h
              · next hfle =>
                split at h
                · exact RowOutcome.noConfusion h
                · next dt hts =>
                  have ht := RowOutcome.accepted.inj h
                  rw [← ht]
                  exact ⟨hsr, by simpa using hfle, ⟨pyStrip v5, hts⟩⟩

/-- Acceptance guarantees propagate through the row loop. -/
theorem runRows_accepted (fieldnames : List String) :
    ∀ (rows : List (List String)) (seen : Finset String)
      (txns : List Transaction) (trace : List RowOutcome)
      (res : List RowOutcome × Finset String × List Transaction),
      runRows fieldnames rows seen txns trace = .ok res →
      (∀ t ∈ txns, t.sender_id ≠ t.receiver_id ∧
        FloatVal.fle t.amount (.finite 0) = false ∧
        ∃ s, parseTs s = some t.timestamp) →
      ∀ t ∈ res.2.2, t.sender_id ≠ t.receiver_id ∧
        FloatVal.fle t.amount (.finite 0) = false ∧
        ∃ s, parseTs s = some t.timestamp
  | [], seen, txns, trace, res, h, hP => by
    rw [runRows] at h
    have hres := Except.ok.inj h
    rw [← hres]
    exact hP
  | row :: rows, seen, txns, trace, res, h, hP => by
    rw [runRows] at h
    rcases hrp : rowProc fieldnames seen row with ⟨o, seen'⟩
    rw [hrp] at h
    cases o with
    | accepted t0 =>
      refine runRows_accepted fieldnames rows seen' (txns ++ [t0]) _ res h ?_
      intro t ht
      rcases List.mem_append.mp ht with h1 | h1
      · exact hP t h1
      · simp only [List.mem_singleton] at h1
        rw [h1]
        exact rowProc_accepted fieldnames seen row t0 (by rw [hrp])
    | attrError => exact Except.noConfusion h
    | skipMissingKey => exact runRows_accepted fieldnames rows seen' txns _ res h hP
    | skipEmptyField => exact runRows_accepted fieldnames rows seen' txns _ res h hP
    | skipDup id => exact runRows_accepted fieldnames rows seen' txns _ res h hP
    | skipSelfLoop => exact runRows_accepted fieldnames rows seen' txns _ res h hP
    | skipAmount => exact runRows_accepted fieldnames rows seen' txns _ res h hP
    | skipTimestamp => exact runRows_accepted fieldnames rows seen' txns _ res h hP

/-- Every transaction `parse_csv` returns satisfies the row-level
acceptance guarantees. -/
theorem parse_csv_accepted (content : List ℕ) (l : List Transaction)
    (h : parse_csv content = .ok l) :
    ∀ t ∈ l, t.sender_id ≠ t.receiver_id ∧
      FloatVal.fle t.amount (.finite 0) = false ∧
      ∃ s, parseTs s = some t.timestamp := by
  simp only [parse_csv, parse_csv_trace] at h
  split at h
  · exact Except.noConfusion h
  · split at h
    · exact Except.noConfusion h
    · split at h
      · exact Except.noConfusion h
      · split at h
        · exact Except.noConfusion h
        · next trace rest2 txns heq =>
          split at h
          · exact Except.noConfusion h
          · have hl : txns = l := Except.ok.inj h
            rw [← hl]
            exact runRows_accepted _ _ _ _ _ _ heq
              (fun t ht => absurd ht (List.not_mem_nil t))

/-- **C1** (corrected): what acceptance actually guarantees — distinct
sender and receiver, an amount for which `amount <= 0` is false under
IEEE comparison (weaker than `0 < amount`: true for `nan`), and a
timestamp some string parses to under `strptime` (weaker than matching
the exact `YYYY-MM-DD HH:MM:SS` shape: unpadded fields parse too). -/
theorem C1_accepted_invariants (content : List ℕ) (l : List Transaction)
    (h : parse_csv content = .ok l) :
    ∀ t ∈ l, t.sender_id ≠ t.receiver_id ∧
      FloatVal.fle t.amount (.finite 0) = false ∧
      ∃ s, parseTs s = some t.timestamp :=
  parse_csv_accepted content l h

set_option maxRecDepth 40000 in
/-- Counterexample for C1's stronger reading: a `nan` amount is
accepted although `0 < nan` is false, and an unpadded timestamp is
accepted although it does not match the exact format. -/
theorem C1_accepted_invariants_counterexample :
    parse_csv (asciiBytes
        "transaction_id,sender_id,receiver_id,amount,timestamp\nT1,A,B,nan,2024-01-01 00:00:00") =
      .ok [⟨"T1", "A", "B", .nan, ⟨2024, 1, 1, 0, 0, 0⟩⟩] ∧
    FloatVal.flt (.finite 0) .nan = false ∧
    parse_csv (asciiBytes
        "transaction_id,sender_id,receiver_id,amount,timestamp\nT2,A,B,5.0,2024-1-1 0:0:0") =
      .ok [⟨"T2", "A", "B", .finite 5, ⟨2024, 1, 1, 0, 0, 0⟩⟩] ∧
    exactFormat "2024-1-1 0:0:0" = false :=
  ⟨rfl, rfl, rfl, rfl⟩

set_option maxRecDepth 40000 in
/-- Witness for C1's row-level guarantee at the accepted `nan` row. -/
theorem C1_accepted_invariants_witness :
    ("A" : String) ≠ "B" ∧
      FloatVal.fle .nan (.finite 0) = false ∧
      ∃ s, parseTs s = some (⟨2024, 1, 1, 0, 0, 0⟩ : DateTime) := by
  have h := C1_accepted_invariants (asciiBytes
      "transaction_id,sender_id,receiver_id,amount,timestamp\nT1,A,B,nan,2024-01-01 00:00:00")
    [⟨"T1", "A", "B", .nan, ⟨2024, 1, 1, 0, 0, 0⟩⟩] rfl
    ⟨"T1", "A", "B", .nan, ⟨2024, 1, 1, 0, 0, 0⟩⟩ (by decide)
  exact ⟨h.1, h.2.1, h.2.2⟩

/-- **C2** (corrected): a duplicate skip means the trimmed id is in
`seen_ids`, but `seen_ids` also holds the ids of rows later rejected
for self-loops, bad amounts or bad timestamps (`seen_ids.add` runs
before those checks), so a row can be skipped as a duplicate of a row
that was never accepted. -/
theorem C2_duplicate_skip :
    (∀ (fieldnames : List String) (seen : Finset String)
      (row : List String) (id : String),
      (rowProc fieldnames seen row).1 = .skipDup id → id ∈ seen) ∧
    (∀ (fieldnames : List String) (seen : Finset String)
      (row : List String) (o : RowOutcome) (seen' : Finset String),
      rowProc fieldnames seen row = (o, seen') →
      o = .skipSelfLoop ∨ o = .skipAmount ∨ o = .skipTimestamp →
      ∃ id, id ∉ seen ∧ seen' = insert id seen) :=
  ⟨rowProc_dup, rowProc_rejected_insert⟩

set_option maxRecDepth 40000 in
/-- Counterexample for C2's spec reading: `T1` is first rejected as a
self-loop (never accepted), yet the second, well-formed `T1` row is
skipped as a duplicate. -/
theorem C2_duplicate_skip_counterexample :
    parse_csv_trace (asciiBytes
        "transaction_id,sender_id,receiver_id,amount,timestamp\nT1,A,A,5.0,2024-01-01 00:00:00\nT1,B,C,5.0,2024-01-01 00:00:01\nT2,D,E,1.0,2024-01-01 00:00:02") =
      (.ok [⟨"T2", "D", "E", .finite 1, ⟨2024, 1, 1, 0, 0, 2⟩⟩],
       [.skipSelfLoop, .skipDup "T1",
        .accepted ⟨"T2", "D", "E", .finite 1, ⟨2024, 1, 1, 0, 0, 2⟩⟩]) :=
  rfl

/-- Witness for C2 at a concrete duplicate row. -/
theorem C2_duplicate_skip_witness :
    (rowProc REQUIRED_COLUMNS {"T1"}
        ["T1", "B", "C", "5.0", "2024-01-01 00:00:01"]).1 = .skipDup "T1" ∧
      "T1" ∈ ({"T1"} : Finset String) :=
  ⟨by decide, C2_duplicate_skip.1 REQUIRED_COLUMNS {"T1"}
    ["T1", "B", "C", "5.0", "2024-01-01 00:00:01"] "T1" (by decide)⟩

set_option maxRecDepth 40000 in
/-- **C8** (code bug): the typed `CSVParseError` cases behave as
specified — non-UTF-8 bytes, empty input, missing required columns,
and zero accepted rows (header-only or all-invalid files) — but a row
shorter than the header makes `row[...]` yield `None` (`DictReader`'s
`restval`) and `None.strip()` raises an `AttributeError` that
`except (ValueError, KeyError)` does not catch, so the parser can
escape with an error that is not the typed parse error. -/
theorem C8_parse_error_cases :
    parse_csv (asciiBytes
        "transaction_id,sender_id,receiver_id,amount,timestamp\nT1,A,B") =
      .error .attributeError ∧
    parse_csv [255] =
      .error (.csvParseError "File is not valid UTF-8 encoded text.") ∧
    parse_csv [] =
      .error (.csvParseError "CSV file is empty or has no header row.") ∧
    parse_csv (asciiBytes "transaction_id,sender_id") =
      .error (.csvParseError "Missing required columns.") ∧
    parse_csv (asciiBytes
        "transaction_id,sender_id,receiver_id,amount,timestamp") =
      .error (.csvParseError "No valid transactions found in the CSV file.") ∧
    parse_csv (asciiBytes
        "transaction_id,sender_id,receiver_id,amount,timestamp\nT1,A,A,5.0,2024-01-01 00:00:00") =
      .error (.csvParseError "No valid transactions found in the CSV file.") ∧
    parse_csv (asciiBytes
        "transaction_id,sender_id,receiver_id,amount,timestamp\nT3,C,D,5.0,2024-01-01 00:00:00") =
      .ok [⟨"T3", "C", "D", .finite 5, ⟨2024, 1, 1, 0, 0, 0⟩⟩] :=
  ⟨rfl, rfl, rfl, rfl, rfl, rfl, rfl⟩

end RatComputable

end Engine
